import Mathlib

/-!
Shallow embedding of the `petitset` crate: the fixed-capacity, array-backed
`PetitMap` (src/map.rs) and `PetitSet` (src/set.rs) together with the derived
set algebra (src/set_algebra.rs) and the serde boundary (src/serde.rs).

The Rust `[Option<Entry>; CAP]` backing array is modelled as a
`List (Option Entry)`; the const-generic capacity `CAP` is the length of that
list.  Rust panics (failed `assert!`s and out-of-bounds slice indexing) are
modelled with `Except Unit`: `.error ()` is a panic.  A mutating Rust method
returning `R` becomes a Lean function returning the new container paired with
the modelled return value of type `R`.
-/

/-- First index holding `none`, mirroring the `(cursor..CAP).find(is_none)`
scans (with cursor 0, see `nextEmptyIndex`). -/
def firstNoneIdx {A : Type} : List (Option A) → Option Nat
  | [] => none
  | none :: _ => some 0
  | some _ :: rest => (firstNoneIdx rest).map (· + 1)

/-- First index holding `some`, mirroring the `(cursor..CAP).find(is_some)`
scans (with cursor 0, see `nextFilledIndex`). -/
def firstSomeIdx {A : Type} : List (Option A) → Option Nat
  | [] => none
  | some _ :: _ => some 0
  | none :: rest => (firstSomeIdx rest).map (· + 1)

/-- The `Ok` result of a successful `PetitMap` insertion (src/map.rs,
`SuccesfulMapInsertion`). -/
inductive SuccesfulMapInsertion (V : Type) where
  | NovelKey (index : Nat)
  | ExtantKey (oldValue : V) (index : Nat)
deriving DecidableEq, Repr

/-- `PetitMap<K, V, CAP>` (src/map.rs): a fixed array of `CAP` optional
key-value slots.  `CAP` is the length of `storage`. -/
structure PetitMap (K : Type) (V : Type) where
  storage : List (Option (K × V))
deriving DecidableEq, Repr

namespace PetitMap

variable {K V : Type}

/-- The const-generic capacity `CAP`. -/
def cap (m : PetitMap K V) : Nat := m.storage.length

/-- `PetitMap::new`: all `CAP` slots empty. -/
def new (K V : Type) (c : Nat) : PetitMap K V := ⟨List.replicate c none⟩

/-- `PetitMap::len`: `storage.iter().filter(|e| e.is_some()).count()`. -/
def len (m : PetitMap K V) : Nat := m.storage.countP (·.isSome)

/-- The keys of the occupied slots in index order (the `keys` iterator:
`iter().map(|(k, _v)| k)`). -/
def keyList (m : PetitMap K V) : List K :=
  m.storage.filterMap (Option.map Prod.fst)

/-- Scan of `PetitMap::find`: first index whose slot holds the key. -/
def findIn [DecidableEq K] (k : K) : List (Option (K × V)) → Option Nat
  | [] => none
  | some (k2, _) :: rest =>
      if k = k2 then some 0 else (findIn k rest).map (· + 1)
  | none :: rest => (findIn k rest).map (· + 1)

/-- `PetitMap::find`: linear scan for the key over indices `0..CAP`. -/
def find [DecidableEq K] (m : PetitMap K V) (k : K) : Option Nat :=
  findIn k m.storage

/-- `PetitMap::contains_key`. -/
def containsKey [DecidableEq K] (m : PetitMap K V) (k : K) : Bool :=
  (m.find k).isSome

/-- `PetitMap::get`: `find`, then read the slot. -/
def get [DecidableEq K] (m : PetitMap K V) (k : K) : Option V :=
  match m.find k with
  | some index =>
    match m.storage[index]? with
    | some (some (_, v)) => some v
    | _ => none
  | none => none

/-- `PetitMap::next_empty_index`: `None` when the cursor is at least `CAP`,
else the first empty index in `cursor..CAP`. -/
def nextEmptyIndex (m : PetitMap K V) (cursor : Nat) : Option Nat :=
  if cursor ≥ m.cap then none
  else (firstNoneIdx (m.storage.drop cursor)).map (· + cursor)

/-- `PetitMap::next_filled_index`. -/
def nextFilledIndex (m : PetitMap K V) (cursor : Nat) : Option Nat :=
  if cursor ≥ m.cap then none
  else (firstSomeIdx (m.storage.drop cursor)).map (· + cursor)

/-- `PetitMap::get_at` (and, slot-content-wise, `get_at_mut`):
`assert!(index <= CAP)` (panic when `index > CAP`), then read
`storage[index]` (panic when `index ≥ CAP`).  A panic is `.error ()`. -/
def getAt (m : PetitMap K V) (index : Nat) : Except Unit (Option (K × V)) :=
  if index ≤ m.cap then
    match m.storage[index]? with
    | some slot => .ok slot
    | none => .error ()
  else .error ()

/-- `PetitMap::take_at`: `assert!(index <= CAP)`, read `storage[index]`
(panicking as in `getAt`); when the slot is occupied, swap `None` in and
return the pair, else return `None`. -/
def takeAt (m : PetitMap K V) (index : Nat) :
    Except Unit (PetitMap K V × Option (K × V)) :=
  if index ≤ m.cap then
    match m.storage[index]? with
    | some (some pair) => .ok (⟨m.storage.set index none⟩, some pair)
    | some none => .ok (m, none)
    | none => .error ()
  else .error ()

/-- `PetitMap::remove_at`: `take_at(index).is_some()`. -/
def removeAt (m : PetitMap K V) (index : Nat) :
    Except Unit (PetitMap K V × Bool) :=
  (m.takeAt index).map (fun p => (p.1, p.2.isSome))

/-- `PetitMap::swap_at`: two `assert!(_ <= CAP)`s, then `storage.swap(a, b)`
(which panics when either index is `≥ CAP`). -/
def swapAt (m : PetitMap K V) (a b : Nat) : Except Unit (PetitMap K V) :=
  if a ≤ m.cap then
    if b ≤ m.cap then
      match m.storage[a]?, m.storage[b]? with
      | some x, some y => .ok ⟨(m.storage.set a y).set b x⟩
      | _, _ => .error ()
    else .error ()
  else .error ()

/-- `PetitMap::clear`: every slot reset to `None`. -/
def clear (m : PetitMap K V) : PetitMap K V :=
  ⟨m.storage.map (fun _ => none)⟩

/-- `PetitMap::insert_unchecked`: store at the next empty index without any
uniqueness check; `None` (and no mutation) when the map is full. -/
def insertUnchecked (m : PetitMap K V) (k : K) (v : V) :
    PetitMap K V × Option Nat :=
  match m.nextEmptyIndex 0 with
  | some index => (⟨m.storage.set index (some (k, v))⟩, some index)
  | none => (m, none)

/-- `PetitMap::try_insert`.  On an extant key the stored value alone is
swapped for the new one (the stored key object is kept) and the old value and
index are reported; on a novel key the pair goes to the first empty slot; a
full map rejects the pair with a `CapacityError` (the `.error` case) and is
left unchanged.  The second `match` arm for an absent/empty slot is
unreachable because `find` only returns occupied in-bounds indices
(see `findIn_eq_some`). -/
def tryInsert [DecidableEq K] (m : PetitMap K V) (k : K) (v : V) :
    PetitMap K V × Except (K × V) (SuccesfulMapInsertion V) :=
  match m.find k with
  | some index =>
    match m.storage[index]? with
    | some (some (k0, oldValue)) =>
        (⟨m.storage.set index (some (k0, v))⟩, .ok (.ExtantKey oldValue index))
    | _ => (m, .error (k, v))
  | none =>
    match m.nextEmptyIndex 0 with
    | some index => (⟨m.storage.set index (some (k, v))⟩, .ok (.NovelKey index))
    | none => (m, .error (k, v))

/-- `PetitMap::insert`: `try_insert` with the capacity error turned into a
panic (`none`). -/
def insert [DecidableEq K] (m : PetitMap K V) (k : K) (v : V) :
    Option (PetitMap K V × SuccesfulMapInsertion V) :=
  match m.tryInsert k v with
  | (m', .ok r) => some (m', r)
  | (_, .error _) => none

/-- `PetitMap::insert_at`: `assert!(index <= CAP)`; when the key already
exists its slot is swapped with slot `index`; else an unrelated occupant of
slot `index` is taken out and returned while the new pair is stored there. -/
def insertAt [DecidableEq K] (m : PetitMap K V) (k : K) (v : V) (index : Nat) :
    Except Unit (PetitMap K V × Option (K × V)) :=
  if index ≤ m.cap then
    match m.find k with
    | some oldIndex => (m.swapAt oldIndex index).map (fun m' => (m', none))
    | none =>
      match m.getAt index with
      | .error _ => .error ()
      | .ok (some _) =>
        match m.takeAt index with
        | .error _ => .error ()
        | .ok (m', removed) => .ok (⟨m'.storage.set index (some (k, v))⟩, removed)
      | .ok none => .ok (⟨m.storage.set index (some (k, v))⟩, none)
  else .error ()

/-- `PetitMap::remove`: find the key, then `remove_at` (which cannot panic
there: `find` returns in-bounds indices; the `.error` fallback is
unreachable). -/
def remove [DecidableEq K] (m : PetitMap K V) (k : K) :
    PetitMap K V × Option Nat :=
  match m.find k with
  | some index =>
    match m.takeAt index with
    | .ok (m', _) => (m', some index)
    | .error _ => (m, some index)
  | none => (m, none)

/-- `PetitMap::take`: find the key, then `take_at`, returning the index and
the removed pair (the `.error` fallback is unreachable as in `remove`). -/
def take [DecidableEq K] (m : PetitMap K V) (k : K) :
    PetitMap K V × Option (Nat × (K × V)) :=
  match m.find k with
  | some index =>
    match m.takeAt index with
    | .ok (m', removed) => (m', removed.map (fun pair => (index, pair)))
    | .error _ => (m, none)
  | none => (m, none)

/-- `PetitMap::swap`: swap the slots of the two keys when both are found. -/
def swapKeys [DecidableEq K] (m : PetitMap K V) (ka kb : K) :
    PetitMap K V × Bool :=
  match m.find ka, m.find kb with
  | some ia, some ib =>
    match m.swapAt ia ib with
    | .ok m' => (m', true)
    | .error _ => (m, true)
  | _, _ => (m, false)

/-- `PetitMap::retain` over the slot list in ascending index order.  The
`FnMut` closure is modelled with an explicit state `σ`: at each occupied slot
it may update its state, mutate the value in place, and (when it returns
`true`) have the entry removed. -/
def retainGo {σ : Type} (f : σ → K → V → σ × Bool × V) :
    σ → List (Option (K × V)) → List (Option (K × V)) × σ
  | st, [] => ([], st)
  | st, none :: rest =>
    let (r, st') := retainGo f st rest
    (none :: r, st')
  | st, some (k, v) :: rest =>
    let (st1, b, v') := f st k v
    let (r, st2) := retainGo f st1 rest
    ((if b then none else some (k, v')) :: r, st2)

/-- `PetitMap::retain`: `for i in 0..CAP`, visit slot `i` and remove the
entry when the predicate returns `true`. -/
def retain {σ : Type} (m : PetitMap K V) (f : σ → K → V → σ × Bool × V)
    (st : σ) : PetitMap K V × σ :=
  let (l, st') := retainGo f st m.storage
  (⟨l⟩, st')

/-- `Extend::extend` for `PetitMap`: insert every pair, panicking (`none`) on
overflow by a novel key. -/
def extendPairs [DecidableEq K] (m : PetitMap K V) :
    List (K × V) → Option (PetitMap K V)
  | [] => some m
  | (k, v) :: rest =>
    match m.insert k v with
    | some (m', _) => extendPairs m' rest
    | none => none

/-- Loop of `PetitMap::try_from_iter`: `try_insert` each pair, stopping with
a capacity error carrying the partially built map and the rejected pair. -/
def tryFromIterGo [DecidableEq K] (m : PetitMap K V) :
    List (K × V) → Except (PetitMap K V × (K × V)) (PetitMap K V)
  | [] => .ok m
  | (k, v) :: rest =>
    match m.tryInsert k v with
    | (m', .ok _) => tryFromIterGo m' rest
    | (m', .error pair) => .error (m', pair)

/-- `PetitMap::try_from_iter`, starting from the empty map. -/
def tryFromIter (K V : Type) [DecidableEq K] (c : Nat) (l : List (K × V)) :
    Except (PetitMap K V × (K × V)) (PetitMap K V) :=
  tryFromIterGo (new K V c) l

/-- `PartialEq::eq` for `PetitMap` (src/map.rs, line 511): for every key of
`self`, compare `self.get(key)` with `other.get(key)`; `true` when no
mismatch is found.  The two maps may have different capacities. -/
def mapEq [DecidableEq K] [DecidableEq V] (m1 m2 : PetitMap K V) : Bool :=
  m1.keyList.all (fun k => m1.get k == m2.get k)

end PetitMap

/-- `PetitSet<T, CAP>` (src/set.rs): a fixed array of `CAP` optional element
slots, stored directly. -/
structure PetitSet (T : Type) where
  storage : List (Option T)
deriving DecidableEq, Repr

namespace PetitSet

variable {T : Type}

/-- The const-generic capacity `CAP`. -/
def cap (s : PetitSet T) : Nat := s.storage.length

/-- `PetitSet::new` / `default`: all slots empty. -/
def new (T : Type) (c : Nat) : PetitSet T := ⟨List.replicate c none⟩

/-- `PetitSet::len`. -/
def len (s : PetitSet T) : Nat := s.storage.countP (·.isSome)

/-- The occupied elements in index order (the `iter` sequence). -/
def elems (s : PetitSet T) : List T := s.storage.filterMap id

/-- `PetitSet::next_empty_index`. -/
def nextEmptyIndex (s : PetitSet T) (cursor : Nat) : Option Nat :=
  if cursor ≥ s.cap then none
  else (firstNoneIdx (s.storage.drop cursor)).map (· + cursor)

/-- `PetitSet::next_filled_index`. -/
def nextFilledIndex (s : PetitSet T) (cursor : Nat) : Option Nat :=
  if cursor ≥ s.cap then none
  else (firstSomeIdx (s.storage.drop cursor)).map (· + cursor)

/-- Scan of `PetitSet::find`. -/
def findIn [DecidableEq T] (e : T) : List (Option T) → Option Nat
  | [] => none
  | some e2 :: rest =>
      if e = e2 then some 0 else (findIn e rest).map (· + 1)
  | none :: rest => (findIn e rest).map (· + 1)

/-- `PetitSet::find`. -/
def find [DecidableEq T] (s : PetitSet T) (e : T) : Option Nat :=
  findIn e s.storage

/-- `PetitSet::contains`. -/
def contains [DecidableEq T] (s : PetitSet T) (e : T) : Bool :=
  (s.find e).isSome

/-- `PetitSet::get_at`: reads `storage[index]` directly (no assert), so any
index `≥ CAP` panics at the slice access. -/
def getAt (s : PetitSet T) (index : Nat) : Except Unit (Option T) :=
  match s.storage[index]? with
  | some slot => .ok slot
  | none => .error ()

/-- `PetitSet::take_at`: `assert!(index <= CAP)` (panic when `index > CAP`),
then unconditionally swap `None` with `storage[index]` (panic when
`index ≥ CAP`) and return the previous occupant. -/
def takeAt (s : PetitSet T) (index : Nat) :
    Except Unit (PetitSet T × Option T) :=
  if index ≤ s.cap then
    match s.storage[index]? with
    | some slot => .ok (⟨s.storage.set index none⟩, slot)
    | none => .error ()
  else .error ()

/-- `PetitSet::remove_at`: `take_at(index).is_some()`. -/
def removeAt (s : PetitSet T) (index : Nat) :
    Except Unit (PetitSet T × Bool) :=
  (s.takeAt index).map (fun p => (p.1, p.2.isSome))

/-- `PetitSet::remove`: find the element and empty its slot. -/
def remove [DecidableEq T] (s : PetitSet T) (e : T) :
    PetitSet T × Option Nat :=
  match s.find e with
  | some index => (⟨s.storage.set index none⟩, some index)
  | none => (s, none)

/-- `PetitSet::take`: find the element, `take_at` its index, and return
index and value (the `.error` fallback is unreachable: `find` returns
occupied in-bounds indices). -/
def take [DecidableEq T] (s : PetitSet T) (e : T) :
    PetitSet T × Option (Nat × T) :=
  match s.find e with
  | some index =>
    match s.takeAt index with
    | .ok (s', removed) => (s', removed.map (fun r => (index, r)))
    | .error _ => (s, none)
  | none => (s, none)

/-- `PetitSet::clear`. -/
def clear (s : PetitSet T) : PetitSet T :=
  ⟨s.storage.map (fun _ => none)⟩

/-- `PetitSet::try_insert`: a present element reports `(index, false)`; a
novel one goes to the first empty slot reporting `(index, true)`; a full set
rejects a novel element with a `CapacityError` (the `.error` case), leaving
the set unchanged. -/
def tryInsert [DecidableEq T] (s : PetitSet T) (e : T) :
    PetitSet T × Except T (Nat × Bool) :=
  match s.find e with
  | some index => (s, .ok (index, false))
  | none =>
    match s.nextEmptyIndex 0 with
    | some index => (⟨s.storage.set index (some e)⟩, .ok (index, true))
    | none => (s, .error e)

/-- `PetitSet::insert`: `try_insert` with the capacity error turned into a
panic (`none`). -/
def insert [DecidableEq T] (s : PetitSet T) (e : T) :
    Option (PetitSet T × Nat × Bool) :=
  match s.tryInsert e with
  | (s', .ok r) => some (s', r)
  | (_, .error _) => none

/-- `PetitSet::insert_at`: `assert!(index <= CAP)`; when the element is
already present the set is returned unchanged with `None` (no relocation
happens and no slot is read); otherwise the element is swapped into
`storage[index]` (panicking when `index ≥ CAP`) and the previous occupant is
returned. -/
def insertAt [DecidableEq T] (s : PetitSet T) (e : T) (index : Nat) :
    Except Unit (PetitSet T × Option T) :=
  if index ≤ s.cap then
    if s.contains e then .ok (s, none)
    else
      match s.storage[index]? with
      | some old => .ok (⟨s.storage.set index (some e)⟩, old)
      | none => .error ()
  else .error ()

/-- `PetitSet::extend`: insert every element, panicking (`none`) on overflow
by a novel element. -/
def extendElems [DecidableEq T] (s : PetitSet T) :
    List T → Option (PetitSet T)
  | [] => some s
  | e :: rest =>
    match s.insert e with
    | some (s', _) => extendElems s' rest
    | none => none

/-- `PetitSet::try_extend`: `try_insert` every element, propagating the first
capacity error. -/
def tryExtend [DecidableEq T] (s : PetitSet T) :
    List T → Except T (PetitSet T)
  | [] => .ok s
  | e :: rest =>
    match s.tryInsert e with
    | (s', .ok _) => tryExtend s' rest
    | (_, .error e') => .error e'

/-- Filling loop of `PetitSet::try_from_iter`: while fewer than `CAP` slots
are initialized, pull the next iterator value (`none` once exhausted, the
iterator being fused); skip it when it is a duplicate of an
already-initialized slot, else write it.  Returns the initialized array and
the unconsumed remainder of the iterator. -/
def tfiGo [DecidableEq T] (c : Nat) (acc : List (Option T)) :
    List T → List (Option T) × List T
  | [] => (acc ++ List.replicate (c - acc.length) none, [])
  | v :: rest =>
    if acc.length < c then
      if acc.contains (some v) then tfiGo c acc rest
      else tfiGo c (acc ++ [some v]) rest
    else (acc, v :: rest)

/-- `PetitSet::try_from_iter`: fill the array as in `tfiGo`, then fail with a
capacity error on the first leftover value not already contained. -/
def tryFromIter (T : Type) [DecidableEq T] (c : Nat) (l : List T) :
    Except (PetitSet T × T) (PetitSet T) :=
  let result := tfiGo c ([] : List (Option T)) l
  let s : PetitSet T := ⟨result.1⟩
  match result.2.find? (fun v => !(s.contains v)) with
  | some v => .error (s, v)
  | none => .ok s

/-- Modelled from the spec: `PetitSet::insert_unchecked`, called by
src/set_algebra.rs but absent from the src/set.rs variant (only the
`PetitMap` form at src/map.rs lines 204-209 is present).  Per the spec's
"insert without uniqueness check" fast path and the map analog: store at the
next empty index without any duplicate scan; `None` and no mutation when the
set is full. -/
def insertUnchecked (s : PetitSet T) (e : T) : PetitSet T × Option Nat :=
  match s.nextEmptyIndex 0 with
  | some index => (⟨s.storage.set index (some e)⟩, some index)
  | none => (s, none)

/-- `PartialEq::eq` for `PetitSet` (src/set.rs line 418): unequal
cardinalities compare unequal, otherwise every element of `self` must find a
match in `other`. -/
def setEq [DecidableEq T] (s1 s2 : PetitSet T) : Bool :=
  if s1.len = s2.len then
    s1.elems.all (fun a => s2.elems.any (fun b => a == b))
  else false

/-- `max_of` (src/set_algebra.rs line 224). -/
def maxOf (a b : Nat) : Nat := if a ≥ b then a else b

/-- Loop shared by `difference` and `symmetric_difference`
(src/set_algebra.rs): `for s in source { if !other.contains(s) {
acc.insert_unchecked(s) } }`. -/
def diffGo [DecidableEq T] (other : PetitSet T) (acc : PetitSet T) :
    List T → PetitSet T
  | [] => acc
  | a :: rest =>
    if other.contains a then diffGo other acc rest
    else diffGo other (acc.insertUnchecked a).1 rest

/-- `PetitSet::difference` (composed with `into_set`): elements of `self`
absent from `other`, in a fresh set of capacity `CAP`. -/
def difference [DecidableEq T] (A B : PetitSet T) : PetitSet T :=
  diffGo B (new T A.cap) A.elems

/-- `PetitSet::symmetric_difference` (composed with `into_set`): elements of
exactly one of the two sets, in a fresh set of capacity
`CAP + OTHER_CAP`. -/
def symmetricDifference [DecidableEq T] (A B : PetitSet T) : PetitSet T :=
  diffGo A (diffGo B (new T (A.cap + B.cap)) A.elems) B.elems

/-- Loop of `intersection`: `for s in self { if other.contains(s) {
acc.insert_unchecked(s) } }`. -/
def interGo [DecidableEq T] (other : PetitSet T) (acc : PetitSet T) :
    List T → PetitSet T
  | [] => acc
  | a :: rest =>
    if other.contains a then interGo other (acc.insertUnchecked a).1 rest
    else interGo other acc rest

/-- `PetitSet::intersection` (composed with `into_set`): elements present in
both sets, in a fresh set of capacity `max_of(CAP, OTHER_CAP)`. -/
def intersection [DecidableEq T] (A B : PetitSet T) : PetitSet T :=
  interGo B (new T (maxOf A.cap B.cap)) A.elems

/-- First loop of `union`: copy every element of `self` with
`insert_unchecked`. -/
def unionGoU (acc : PetitSet T) : List T → PetitSet T
  | [] => acc
  | a :: rest => unionGoU (acc.insertUnchecked a).1 rest

/-- Second loop of `union`: `insert` (the panicking form) every element of
`other`, since uniqueness against the copied elements is not guaranteed. -/
def unionGoC [DecidableEq T] (acc : PetitSet T) :
    List T → Option (PetitSet T)
  | [] => some acc
  | a :: rest =>
    match acc.insert a with
    | some (acc', _) => unionGoC acc' rest
    | none => none

/-- `PetitSet::union` (composed with `into_set`): all distinct elements of
the two sets in a fresh set of capacity `CAP + OTHER_CAP`; `none` models the
panic of the inner `insert` (proved unreachable in `unionIsSome`). -/
def union [DecidableEq T] (A B : PetitSet T) : Option (PetitSet T) :=
  unionGoC (unionGoU (new T (A.cap + B.cap)) A.elems) B.elems

/-- `PetitSet::is_disjoint`: the double loop returning `false` on the first
common element. -/
def isDisjoint [DecidableEq T] (A B : PetitSet T) : Bool :=
  A.elems.all (fun a => B.elems.all (fun b => !(a == b)))

/-- `PetitSet::is_subset`: every element of `self` finds a match in
`other`. -/
def isSubset [DecidableEq T] (A B : PetitSet T) : Bool :=
  A.elems.all (fun a => B.elems.any (fun b => a == b))

/-- `PetitSet::is_superset`: every element of `other` finds a match in
`self`. -/
def isSuperset [DecidableEq T] (A B : PetitSet T) : Bool :=
  B.elems.all (fun b => A.elems.any (fun a => b == a))

end PetitSet

/-- Slot-filling loop of the serde `visit_seq` deserializers (src/serde.rs):
starting from a default (all-`None`) container of `CAP` slots, write decoded
slot `i` for `i` in `0..CAP` as long as the decoded sequence has a next
element, and `break` (leaving the remaining slots at their default `None`)
once it is exhausted. -/
def fillSlots {A : Type} : Nat → List (Option A) → List (Option A)
  | 0, _ => []
  | n + 1, [] => List.replicate (n + 1) none
  | n + 1, x :: rest => x :: fillSlots n rest

/-- `Serialize for PetitMap` (src/serde.rs lines 17-29): emit exactly `CAP`
elements, `storage[i]` for `i` in `0..CAP`, in index order. -/
def serializeMap {K V : Type} (m : PetitMap K V) : List (Option (K × V)) :=
  (List.range m.cap).map (fun i => m.storage.getD i none)

/-- `PetitMapVisitor::visit_seq` (src/serde.rs lines 68-88), with the
abstract `SeqAccess` modelled as the list of decoded optional slots. -/
def visitSeqMap (K V : Type) (c : Nat) (l : List (Option (K × V))) :
    PetitMap K V :=
  ⟨fillSlots c l⟩

/-- The composed `PetitSet` variant that src/serde.rs addresses (it reads and
writes `set.map.storage`, a `PetitMap` with unit values). -/
structure PetitSetC (T : Type) where
  map : PetitMap T Unit
deriving DecidableEq

/-- `Serialize for PetitSet` (src/serde.rs lines 97-113): emit exactly `CAP`
elements in index order, projecting each occupied slot `Some((k, _v))` to
`Some(k)`. -/
def serializeSetC {T : Type} (s : PetitSetC T) : List (Option T) :=
  (List.range s.map.cap).map (fun i => (s.map.storage.getD i none).map Prod.fst)

/-- Slot-filling loop of `PetitSetVisitor::visit_seq`: each decoded slot is
written as `element.map(|e| (e, ()))`. -/
def fillSlotsSet {T : Type} : Nat → List (Option T) → List (Option (T × Unit))
  | 0, _ => []
  | n + 1, [] => List.replicate (n + 1) none
  | n + 1, x :: rest => (x.map (fun e => (e, ()))) :: fillSlotsSet n rest

/-- `PetitSetVisitor::visit_seq` (src/serde.rs lines 150-171). -/
def visitSeqSetC (T : Type) (c : Nat) (l : List (Option T)) : PetitSetC T :=
  ⟨⟨fillSlotsSet c l⟩⟩

/-- The uniqueness invariant for maps: the keys of the occupied slots are
pairwise distinct. -/
def mapKeysUnique {K V : Type} (m : PetitMap K V) : Prop := m.keyList.Nodup

/-- The uniqueness invariant for sets: the occupied elements are pairwise
distinct. -/
def setUnique {T : Type} (s : PetitSet T) : Prop := s.elems.Nodup

/-- Map states reachable from an empty map through the checked public
mutation entry points (the unchecked escape hatches `insert_unchecked` and
`from_raw_array_unchecked` are deliberately excluded). -/
inductive ReachableMap {K V : Type} [DecidableEq K] : PetitMap K V → Prop where
  | base (c : Nat) : ReachableMap (PetitMap.new K V c)
  | ofTryInsert {m : PetitMap K V} (k : K) (v : V) :
      ReachableMap m → ReachableMap (m.tryInsert k v).1
  | ofInsert {m m' : PetitMap K V} {r : SuccesfulMapInsertion V} (k : K) (v : V) :
      ReachableMap m → m.insert k v = some (m', r) → ReachableMap m'
  | ofInsertAt {m m' : PetitMap K V} {r : Option (K × V)} (k : K) (v : V) (i : Nat) :
      ReachableMap m → m.insertAt k v i = .ok (m', r) → ReachableMap m'
  | ofExtend {m m' : PetitMap K V} (l : List (K × V)) :
      ReachableMap m → m.extendPairs l = some m' → ReachableMap m'
  | ofTryFromIterOk {m' : PetitMap K V} (c : Nat) (l : List (K × V)) :
      PetitMap.tryFromIter K V c l = .ok m' → ReachableMap m'
  | ofTryFromIterErr {m' : PetitMap K V} {p : K × V} (c : Nat) (l : List (K × V)) :
      PetitMap.tryFromIter K V c l = .error (m', p) → ReachableMap m'
  | ofRemove {m : PetitMap K V} (k : K) :
      ReachableMap m → ReachableMap (m.remove k).1
  | ofTake {m : PetitMap K V} (k : K) :
      ReachableMap m → ReachableMap (m.take k).1
  | ofTakeAt {m m' : PetitMap K V} {r : Option (K × V)} (i : Nat) :
      ReachableMap m → m.takeAt i = .ok (m', r) → ReachableMap m'
  | ofRemoveAt {m m' : PetitMap K V} {r : Bool} (i : Nat) :
      ReachableMap m → m.removeAt i = .ok (m', r) → ReachableMap m'
  | ofSwapKeys {m : PetitMap K V} (ka kb : K) :
      ReachableMap m → ReachableMap (m.swapKeys ka kb).1
  | ofSwapAt {m m' : PetitMap K V} (a b : Nat) :
      ReachableMap m → m.swapAt a b = .ok m' → ReachableMap m'
  | ofRetain {σ : Type} {m : PetitMap K V} (f : σ → K → V → σ × Bool × V) (st : σ) :
      ReachableMap m → ReachableMap (m.retain f st).1
  | ofClear {m : PetitMap K V} :
      ReachableMap m → ReachableMap m.clear

/-- Set states reachable from an empty set through the checked public
mutation entry points (`insert_unchecked` and `from_raw_array_unchecked`
excluded). -/
inductive ReachableSet {T : Type} [DecidableEq T] : PetitSet T → Prop where
  | base (c : Nat) : ReachableSet (PetitSet.new T c)
  | ofTryInsert {s : PetitSet T} (e : T) :
      ReachableSet s → ReachableSet (s.tryInsert e).1
  | ofInsert {s s' : PetitSet T} {r : Nat × Bool} (e : T) :
      ReachableSet s → s.insert e = some (s', r) → ReachableSet s'
  | ofInsertAt {s s' : PetitSet T} {r : Option T} (e : T) (i : Nat) :
      ReachableSet s → s.insertAt e i = .ok (s', r) → ReachableSet s'
  | ofExtend {s s' : PetitSet T} (l : List T) :
      ReachableSet s → s.extendElems l = some s' → ReachableSet s'
  | ofTryExtend {s s' : PetitSet T} (l : List T) :
      ReachableSet s → s.tryExtend l = .ok s' → ReachableSet s'
  | ofTryFromIterOk {s' : PetitSet T} (c : Nat) (l : List T) :
      PetitSet.tryFromIter T c l = .ok s' → ReachableSet s'
  | ofTryFromIterErr {s' : PetitSet T} {e : T} (c : Nat) (l : List T) :
      PetitSet.tryFromIter T c l = .error (s', e) → ReachableSet s'
  | ofRemove {s : PetitSet T} (e : T) :
      ReachableSet s → ReachableSet (s.remove e).1
  | ofTake {s : PetitSet T} (e : T) :
      ReachableSet s → ReachableSet (s.take e).1
  | ofTakeAt {s s' : PetitSet T} {r : Option T} (i : Nat) :
      ReachableSet s → s.takeAt i = .ok (s', r) → ReachableSet s'
  | ofRemoveAt {s s' : PetitSet T} {r : Bool} (i : Nat) :
      ReachableSet s → s.removeAt i = .ok (s', r) → ReachableSet s'
  | ofClear {s : PetitSet T} :
      ReachableSet s → ReachableSet s.clear

/-- The closure state accumulated by `retain` after visiting the slots of a
prefix of the storage, in ascending index order. -/
def retainStateAt {K V σ : Type} (f : σ → K → V → σ × Bool × V) (st : σ)
    (l : List (Option (K × V))) : σ :=
  l.foldl (fun s slot =>
    match slot with
    | none => s
    | some (k, v) => (f s k v).1) st

/-- The fate of one occupied slot under `retain`, given the closure state at
the moment it is visited: removed when the predicate returns `true`, kept in
place (with the possibly mutated value) otherwise. -/
def retainSlot {K V σ : Type} (f : σ → K → V → σ × Bool × V) (st : σ) :
    Option (K × V) → Option (K × V)
  | none => none
  | some (k, v) => if (f st k v).2.1 then none else some (k, (f st k v).2.2)

/-- A set whose occupied slots are exactly the elements of `l`, packed at the
low indices of a capacity-`c` storage.  The set-algebra loops only ever build
sets of this shape (append-only `insert_unchecked` / checked `insert` into an
initially empty result). -/
def packedSet {T : Type} (c : Nat) (l : List T) : PetitSet T :=
  ⟨l.map some ++ List.replicate (c - l.length) none⟩

/-! ### Generic list lemmas used throughout -/

theorem setSelfOfGet {A : Type} :
    ∀ (l : List A) (i : Nat) (x : A), l[i]? = some x → l.set i x = l
  | [], i, x, h => by simp at h
  | a :: t, 0, x, h => by
    simp at h
    simp [List.set, h]
  | a :: t, i + 1, x, h => by
    simp at h
    simp [List.set]
    exact setSelfOfGet t i x h

theorem setConsPerm {A : Type} :
    ∀ (t : List A) (k : Nat) (x y : A), t[k]? = some y →
      (y :: t.set k x).Perm (x :: t)
  | [], k, x, y, h => by simp at h
  | b :: t, 0, x, y, h => by
    simp at h
    subst h
    simpa [List.set] using List.Perm.swap x b t
  | b :: t, k + 1, x, y, h => by
    simp at h
    have ih := setConsPerm t k x y h
    have s1 : List.Perm (y :: b :: t.set k x) (b :: y :: t.set k x) :=
      List.Perm.swap b y _
    have s2 : List.Perm (b :: y :: t.set k x) (b :: x :: t) :=
      List.Perm.cons b ih
    have s3 : List.Perm (b :: x :: t) (x :: b :: t) := List.Perm.swap x b t
    simpa [List.set] using (s1.trans s2).trans s3

theorem setSetPerm {A : Type} :
    ∀ (l : List A) (i j : Nat) (x y : A), l[i]? = some x → l[j]? = some y →
      ((l.set i y).set j x).Perm l
  | [], _, _, x, y, hi, hj => by simp at hi
  | a :: t, 0, 0, x, y, hi, hj => by
    simp at hi hj
    subst hi
    subst hj
    simp [List.set]
  | a :: t, 0, j + 1, x, y, hi, hj => by
    simp at hi hj
    subst hi
    simpa [List.set] using setConsPerm t j a y hj
  | a :: t, i + 1, 0, x, y, hi, hj => by
    simp at hi hj
    subst hj
    simpa [List.set] using setConsPerm t i a x hi
  | a :: t, i + 1, j + 1, x, y, hi, hj => by
    simp at hi hj
    simpa [List.set] using List.Perm.cons a (setSetPerm t i j x y hi hj)

theorem filterMapSetNoneSublist {A B : Type} (f : Option A → Option B)
    (hf : f none = none) :
    ∀ (l : List (Option A)) (i : Nat),
      ((l.set i none).filterMap f).Sublist (l.filterMap f)
  | [], i => by simp
  | a :: t, 0 => by
    cases h : f a with
    | none => simp [List.set, List.filterMap_cons, hf, h]
    | some b =>
      simp [List.set, List.filterMap_cons, hf, h]
  | a :: t, i + 1 => by
    cases h : f a with
    | none =>
      simpa [List.set, List.filterMap_cons, h]
        using filterMapSetNoneSublist f hf t i
    | some b =>
      simpa [List.set, List.filterMap_cons, h]
        using (List.cons_sublist_cons (a := b)).mpr
          (filterMapSetNoneSublist f hf t i)

theorem filterMapSetSomePerm {A B : Type} (f : Option A → Option B)
    (hf : f none = none) :
    ∀ (l : List (Option A)) (i : Nat) (x : A) (b : B),
      l[i]? = some none → f (some x) = some b →
      ((l.set i (some x)).filterMap f).Perm (b :: l.filterMap f)
  | [], i, x, b, hi, hx => by simp at hi
  | a :: t, 0, x, b, hi, hx => by
    simp at hi
    subst hi
    simp [List.set, List.filterMap_cons, hf, hx]
  | a :: t, i + 1, x, b, hi, hx => by
    simp at hi
    have ih := filterMapSetSomePerm f hf t i x b hi hx
    cases h : f a with
    | none => simpa [List.set, List.filterMap_cons, h] using ih
    | some c =>
      have s1 : List.Perm (c :: (t.set i (some x)).filterMap f)
          (c :: b :: t.filterMap f) := List.Perm.cons c ih
      have s2 : List.Perm (c :: b :: t.filterMap f) (b :: c :: t.filterMap f) :=
        List.Perm.swap b c _
      simpa [List.set, List.filterMap_cons, h] using s1.trans s2

theorem filterMapSetCongr {A B : Type} (f : Option A → Option B) :
    ∀ (l : List (Option A)) (i : Nat) (s0 s1 : Option A),
      l[i]? = some s0 → f s1 = f s0 →
      (l.set i s1).filterMap f = l.filterMap f
  | [], i, s0, s1, hi, hs => by simp at hi
  | a :: t, 0, s0, s1, hi, hs => by
    simp at hi
    subst hi
    simp [List.set, List.filterMap_cons, hs]
  | a :: t, i + 1, s0, s1, hi, hs => by
    simp at hi
    have ih := filterMapSetCongr f t i s0 s1 hi hs
    cases h : f a with
    | none => simpa [List.set, List.filterMap_cons, h] using ih
    | some c => simp [List.set, List.filterMap_cons, h, ih]

theorem firstNoneIdxEqSome {A : Type} :
    ∀ (l : List (Option A)) (i : Nat), firstNoneIdx l = some i →
      l[i]? = some none ∧ ∀ j, j < i → ∃ a, l[j]? = some (some a)
  | [], i, h => by simp [firstNoneIdx] at h
  | none :: t, i, h => by
    simp [firstNoneIdx] at h
    subst h
    exact ⟨by simp, fun j hj => absurd hj (Nat.not_lt_zero j)⟩
  | some a :: t, i, h => by
    simp only [firstNoneIdx, Option.map_eq_some'] at h
    obtain ⟨i0, h0, rfl⟩ := h
    obtain ⟨h1, h2⟩ := firstNoneIdxEqSome t i0 h0
    refine ⟨by simpa using h1, ?_⟩
    intro j hj
    match j with
    | 0 => exact ⟨a, by simp⟩
    | j + 1 =>
      have := h2 j (by omega)
      simpa using this

theorem firstNoneIdxEqNoneIff {A : Type} :
    ∀ (l : List (Option A)), firstNoneIdx l = none ↔ ∀ s ∈ l, s.isSome
  | [] => by simp [firstNoneIdx]
  | none :: t => by simp [firstNoneIdx]
  | some a :: t => by
    simp [firstNoneIdx, Option.map_eq_none', firstNoneIdxEqNoneIff t]

theorem firstNoneIdxIsSomeOfCount {A : Type} (l : List (Option A))
    (h : l.countP (·.isSome) < l.length) : ∃ i, firstNoneIdx l = some i := by
  cases hfn : firstNoneIdx l with
  | some i => exact ⟨i, rfl⟩
  | none =>
    have hall := (firstNoneIdxEqNoneIff l).mp hfn
    have : l.countP (·.isSome) = l.length := List.countP_eq_length.mpr hall
    omega

theorem mapFindInEqSome {K V : Type} [DecidableEq K] :
    ∀ (l : List (Option (K × V))) (k : K) (i : Nat),
      PetitMap.findIn k l = some i → ∃ v, l[i]? = some (some (k, v))
  | [], k, i, h => by simp [PetitMap.findIn] at h
  | none :: t, k, i, h => by
    simp only [PetitMap.findIn, Option.map_eq_some'] at h
    obtain ⟨i0, h0, rfl⟩ := h
    obtain ⟨v, hv⟩ := mapFindInEqSome t k i0 h0
    exact ⟨v, by simpa using hv⟩
  | some (k2, v2) :: t, k, i, h => by
    by_cases hk : k = k2
    · simp only [PetitMap.findIn, if_pos hk] at h
      subst hk
      cases h
      exact ⟨v2, by simp⟩
    · simp only [PetitMap.findIn, if_neg hk, Option.map_eq_some'] at h
      obtain ⟨i0, h0, rfl⟩ := h
      obtain ⟨v, hv⟩ := mapFindInEqSome t k i0 h0
      exact ⟨v, by simpa using hv⟩

theorem mapFindInEqNoneIff {K V : Type} [DecidableEq K] :
    ∀ (l : List (Option (K × V))) (k : K),
      PetitMap.findIn k l = none ↔
        k ∉ l.filterMap (Option.map Prod.fst)
  | [], k => by simp [PetitMap.findIn]
  | none :: t, k => by
    simp only [PetitMap.findIn, Option.map_eq_none']
    simpa using mapFindInEqNoneIff t k
  | some (k2, v2) :: t, k => by
    by_cases hk : k = k2
    · subst hk
      simp [PetitMap.findIn, List.filterMap_cons]
    · simp only [PetitMap.findIn, if_neg hk, Option.map_eq_none']
      simp [List.filterMap_cons, hk, mapFindInEqNoneIff t k]

theorem setFindInEqSome {T : Type} [DecidableEq T] :
    ∀ (l : List (Option T)) (e : T) (i : Nat),
      PetitSet.findIn e l = some i → l[i]? = some (some e)
  | [], e, i, h => by simp [PetitSet.findIn] at h
  | none :: t, e, i, h => by
    simp only [PetitSet.findIn, Option.map_eq_some'] at h
    obtain ⟨i0, h0, rfl⟩ := h
    simpa using setFindInEqSome t e i0 h0
  | some e2 :: t, e, i, h => by
    by_cases he : e = e2
    · simp only [PetitSet.findIn, if_pos he] at h
      subst he
      cases h
      simp
    · simp only [PetitSet.findIn, if_neg he, Option.map_eq_some'] at h
      obtain ⟨i0, h0, rfl⟩ := h
      simpa using setFindInEqSome t e i0 h0

theorem setFindInEqNoneIff {T : Type} [DecidableEq T] :
    ∀ (l : List (Option T)) (e : T),
      PetitSet.findIn e l = none ↔ e ∉ l.filterMap id
  | [], e => by simp [PetitSet.findIn]
  | none :: t, e => by
    simp only [PetitSet.findIn, Option.map_eq_none']
    simpa using setFindInEqNoneIff t e
  | some e2 :: t, e => by
    by_cases he : e = e2
    · subst he
      simp [PetitSet.findIn, List.filterMap_cons]
    · simp only [PetitSet.findIn, if_neg he, Option.map_eq_none']
      simp [List.filterMap_cons, he, setFindInEqNoneIff t e]

theorem getSomeLtLength {A : Type} {l : List A} {i : Nat} {x : A}
    (h : l[i]? = some x) : i < l.length := by
  rcases List.getElem?_eq_some.mp h with ⟨hl, _⟩
  exact hl

theorem mapNextEmptyZero {K V : Type} (m : PetitMap K V) :
    m.nextEmptyIndex 0 = firstNoneIdx m.storage := by
  unfold PetitMap.nextEmptyIndex
  split
  · rename_i h
    have hc : m.cap = 0 := by omega
    have : m.storage = [] := List.length_eq_zero.mp hc
    simp [this, firstNoneIdx]
  · simp only [List.drop_zero]
    cases firstNoneIdx m.storage <;> simp

theorem setNextEmptyZero {T : Type} (s : PetitSet T) :
    s.nextEmptyIndex 0 = firstNoneIdx s.storage := by
  unfold PetitSet.nextEmptyIndex
  split
  · rename_i h
    have hc : s.cap = 0 := by omega
    have : s.storage = [] := List.length_eq_zero.mp hc
    simp [this, firstNoneIdx]
  · simp only [List.drop_zero]
    cases firstNoneIdx s.storage <;> simp

theorem getSetSelfSome {A : Type} {l : List A} {i : Nat} {x : A} (a : A)
    (h : l[i]? = some x) : (l.set i a)[i]? = some a := by
  rw [List.getElem?_set_self']
  simp [h, Function.const]

/-! ### Characterizations of the map operations -/

theorem mapTryInsertExtant {K V : Type} [DecidableEq K]
    (m : PetitMap K V) (k : K) (v : V) {i : Nat} (h : m.find k = some i) :
    ∃ old, m.storage[i]? = some (some (k, old)) ∧
      m.tryInsert k v =
        (⟨m.storage.set i (some (k, v))⟩, .ok (.ExtantKey old i)) := by
  obtain ⟨old, hslot⟩ := mapFindInEqSome m.storage k i h
  refine ⟨old, hslot, ?_⟩
  simp only [PetitMap.tryInsert, h, hslot]

theorem mapTryInsertNovel {K V : Type} [DecidableEq K]
    (m : PetitMap K V) (k : K) (v : V) {n : Nat}
    (h : m.find k = none) (hn : m.nextEmptyIndex 0 = some n) :
    m.tryInsert k v = (⟨m.storage.set n (some (k, v))⟩, .ok (.NovelKey n)) := by
  simp only [PetitMap.tryInsert, h, hn]

theorem mapTryInsertFull {K V : Type} [DecidableEq K]
    (m : PetitMap K V) (k : K) (v : V)
    (h : m.find k = none) (hn : m.nextEmptyIndex 0 = none) :
    m.tryInsert k v = (m, .error (k, v)) := by
  simp only [PetitMap.tryInsert, h, hn]

/-! ### Preservation of the key-uniqueness invariant (map) -/

theorem uniqSetNone {K V : Type} {l : List (Option (K × V))} (i : Nat)
    (h : (l.filterMap (Option.map Prod.fst)).Nodup) :
    ((l.set i none).filterMap (Option.map Prod.fst)).Nodup :=
  (filterMapSetNoneSublist (Option.map Prod.fst) rfl l i).nodup h

theorem uniqTryInsert {K V : Type} [DecidableEq K]
    (m : PetitMap K V) (k : K) (v : V) (h : mapKeysUnique m) :
    mapKeysUnique (m.tryInsert k v).1 := by
  cases hf : m.find k with
  | some i =>
    obtain ⟨old, hslot, heq⟩ := mapTryInsertExtant m k v hf
    rw [heq]
    show ((m.storage.set i (some (k, v))).filterMap (Option.map Prod.fst)).Nodup
    rw [filterMapSetCongr (Option.map Prod.fst) m.storage i
      (some (k, old)) (some (k, v)) hslot rfl]
    exact h
  | none =>
    cases hn : m.nextEmptyIndex 0 with
    | some n =>
      rw [mapTryInsertNovel m k v hf hn]
      show ((m.storage.set n (some (k, v))).filterMap (Option.map Prod.fst)).Nodup
      rw [mapNextEmptyZero] at hn
      obtain ⟨hslot, _⟩ := firstNoneIdxEqSome m.storage n hn
      have hperm := filterMapSetSomePerm (Option.map Prod.fst) rfl m.storage n
        (k, v) k hslot rfl
      refine hperm.symm.nodup (List.nodup_cons.mpr ⟨?_, h⟩)
      exact (mapFindInEqNoneIff m.storage k).mp hf
    | none =>
      rw [mapTryInsertFull m k v hf hn]
      exact h

theorem uniqInsert {K V : Type} [DecidableEq K]
    {m m' : PetitMap K V} {r : SuccesfulMapInsertion V} (k : K) (v : V)
    (h : mapKeysUnique m) (he : m.insert k v = some (m', r)) :
    mapKeysUnique m' := by
  unfold PetitMap.insert at he
  have hu := uniqTryInsert m k v h
  rcases hti : m.tryInsert k v with ⟨m2, res⟩
  rw [hti] at he hu
  cases res with
  | ok r2 => cases he; exact hu
  | error p => cases he

theorem uniqTakeAt {K V : Type} [DecidableEq K]
    {m m' : PetitMap K V} {r : Option (K × V)} (i : Nat)
    (h : mapKeysUnique m) (he : m.takeAt i = .ok (m', r)) :
    mapKeysUnique m' := by
  unfold PetitMap.takeAt at he
  split at he
  · split at he
    · cases he
      exact uniqSetNone i h
    · cases he
      exact h
    · cases he
  · cases he

theorem uniqRemoveAt {K V : Type} [DecidableEq K]
    {m m' : PetitMap K V} {r : Bool} (i : Nat)
    (h : mapKeysUnique m) (he : m.removeAt i = .ok (m', r)) :
    mapKeysUnique m' := by
  unfold PetitMap.removeAt at he
  rcases hta : m.takeAt i with e | p
  · rw [hta] at he
    cases he
  · rw [hta] at he
    cases he
    exact uniqTakeAt i h hta

theorem uniqRemove {K V : Type} [DecidableEq K]
    (m : PetitMap K V) (k : K) (h : mapKeysUnique m) :
    mapKeysUnique (m.remove k).1 := by
  unfold PetitMap.remove
  cases hf : m.find k with
  | some i =>
    rcases hta : m.takeAt i with e | p
    · simpa only [hta] using h
    · rcases p with ⟨m2, r⟩
      simpa only [hta] using uniqTakeAt i h hta
  | none => simpa using h

theorem uniqTake {K V : Type} [DecidableEq K]
    (m : PetitMap K V) (k : K) (h : mapKeysUnique m) :
    mapKeysUnique (m.take k).1 := by
  unfold PetitMap.take
  cases hf : m.find k with
  | some i =>
    rcases hta : m.takeAt i with e | p
    · simpa only [hta] using h
    · rcases p with ⟨m2, r⟩
      simpa only [hta] using uniqTakeAt i h hta
  | none => simpa using h

theorem uniqSwapAt {K V : Type} [DecidableEq K]
    {m m' : PetitMap K V} (a b : Nat)
    (h : mapKeysUnique m) (he : m.swapAt a b = .ok m') :
    mapKeysUnique m' := by
  unfold PetitMap.swapAt at he
  split at he
  · split at he
    · split at he
      · cases he
        rename_i x y hx hy
        have hperm := setSetPerm m.storage a b x y hx hy
        exact (hperm.symm.filterMap (Option.map Prod.fst)).nodup h
      · cases he
    · cases he
  · cases he

theorem uniqSwapKeys {K V : Type} [DecidableEq K]
    (m : PetitMap K V) (ka kb : K) (h : mapKeysUnique m) :
    mapKeysUnique (m.swapKeys ka kb).1 := by
  unfold PetitMap.swapKeys
  cases hfa : m.find ka with
  | some ia =>
    cases hfb : m.find kb with
    | some ib =>
      rcases hsw : m.swapAt ia ib with e | m2
      · simpa only [hsw] using h
      · simpa only [hsw] using uniqSwapAt ia ib h hsw
    | none => simpa using h
  | none => simpa using h

theorem allNoneFilterMapNil {A B : Type} (f : Option A → Option B)
    (hf : f none = none) :
    ∀ (l : List (Option A)), (l.map (fun _ => (none : Option A))).filterMap f = []
  | [] => by simp
  | a :: t => by simp [List.filterMap_cons, hf, allNoneFilterMapNil f hf t]

theorem uniqClear {K V : Type} [DecidableEq K] (m : PetitMap K V) :
    mapKeysUnique m.clear := by
  show ((m.storage.map (fun _ => none)).filterMap (Option.map Prod.fst)).Nodup
  rw [allNoneFilterMapNil (Option.map Prod.fst) rfl m.storage]
  exact List.nodup_nil

theorem mapGetAtOk {K V : Type} {m : PetitMap K V} {i : Nat}
    {slot : Option (K × V)} (h : m.getAt i = .ok slot) :
    m.storage[i]? = some slot := by
  unfold PetitMap.getAt at h
  split at h
  · cases hsl : m.storage[i]? with
    | none => rw [hsl] at h; cases h
    | some s => rw [hsl] at h; cases h; rfl
  · cases h

theorem mapGetAtErr {K V : Type} {m : PetitMap K V} {i : Nat}
    (h : i ≥ m.cap) : m.getAt i = .error () := by
  unfold PetitMap.getAt
  by_cases hle : i ≤ m.cap
  · rw [if_pos hle]
    have : m.storage[i]? = none := by
      apply List.getElem?_eq_none
      exact h
    rw [this]
  · rw [if_neg hle]

theorem mapGetAtLt {K V : Type} (m : PetitMap K V) (i : Nat)
    (h : i < m.cap) : ∃ slot, m.storage[i]? = some slot ∧ m.getAt i = .ok slot := by
  have hlt : i < m.storage.length := h
  cases hsl : m.storage[i]? with
  | none =>
    rw [List.getElem?_eq_getElem hlt] at hsl
    exact Option.noConfusion hsl
  | some slot =>
    refine ⟨slot, rfl, ?_⟩
    unfold PetitMap.getAt
    rw [if_pos (Nat.le_of_lt h), hsl]

theorem mapTakeAtOccupied {K V : Type} {m : PetitMap K V} {i : Nat}
    {pair : K × V} (hslot : m.storage[i]? = some (some pair)) :
    m.takeAt i = .ok (⟨m.storage.set i none⟩, some pair) := by
  have hle : i ≤ m.cap := Nat.le_of_lt (getSomeLtLength hslot)
  simp only [PetitMap.takeAt, if_pos hle, hslot]

theorem mapTakeAtEmpty {K V : Type} {m : PetitMap K V} {i : Nat}
    (hslot : m.storage[i]? = some none) :
    m.takeAt i = .ok (m, none) := by
  have hle : i ≤ m.cap := Nat.le_of_lt (getSomeLtLength hslot)
  simp only [PetitMap.takeAt, if_pos hle, hslot]

theorem mapTakeAtErr {K V : Type} {m : PetitMap K V} {i : Nat}
    (h : i ≥ m.cap) : m.takeAt i = .error () := by
  unfold PetitMap.takeAt
  by_cases hle : i ≤ m.cap
  · rw [if_pos hle]
    have : m.storage[i]? = none := by
      apply List.getElem?_eq_none
      exact h
    rw [this]
  · rw [if_neg hle]

theorem uniqInsertAt {K V : Type} [DecidableEq K]
    {m m' : PetitMap K V} {r : Option (K × V)} (k : K) (v : V) (i : Nat)
    (h : mapKeysUnique m) (he : m.insertAt k v i = .ok (m', r)) :
    mapKeysUnique m' := by
  unfold PetitMap.insertAt at he
  by_cases hle : i ≤ m.cap
  · rw [if_pos hle] at he
    cases hf : m.find k with
    | some oldIndex =>
      rw [hf] at he
      rcases hsw : m.swapAt oldIndex i with e | m2
      · simp only [hsw, Except.map] at he
        exact Except.noConfusion he
      · simp only [hsw, Except.map, Except.ok.injEq, Prod.mk.injEq] at he
        obtain ⟨rfl, rfl⟩ := he
        exact uniqSwapAt oldIndex i h hsw
    | none =>
      rw [hf] at he
      have hknot : k ∉ m.storage.filterMap (Option.map Prod.fst) :=
        (mapFindInEqNoneIff m.storage k).mp hf
      rcases hga : m.getAt i with e | slot
      · rw [hga] at he
        cases he
      · rw [hga] at he
        have hsl := mapGetAtOk hga
        cases slot with
        | some pair =>
          rw [mapTakeAtOccupied hsl] at he
          simp only [Except.ok.injEq, Prod.mk.injEq] at he
          obtain ⟨rfl, rfl⟩ := he
          show (((m.storage.set i none).set i
            (some (k, v))).filterMap (Option.map Prod.fst)).Nodup
          have hmid : (m.storage.set i none)[i]? = some none :=
            getSetSelfSome none hsl
          have hperm := filterMapSetSomePerm (Option.map Prod.fst) rfl
            (m.storage.set i none) i (k, v) k hmid rfl
          refine hperm.symm.nodup (List.nodup_cons.mpr ⟨?_, uniqSetNone i h⟩)
          intro hmem
          exact hknot ((filterMapSetNoneSublist (Option.map Prod.fst) rfl
            m.storage i).mem hmem)
        | none =>
          simp only [Except.ok.injEq, Prod.mk.injEq] at he
          obtain ⟨rfl, rfl⟩ := he
          show ((m.storage.set i
            (some (k, v))).filterMap (Option.map Prod.fst)).Nodup
          have hperm := filterMapSetSomePerm (Option.map Prod.fst) rfl
            m.storage i (k, v) k hsl rfl
          exact hperm.symm.nodup (List.nodup_cons.mpr ⟨hknot, h⟩)
  · rw [if_neg hle] at he
    cases he

theorem retainGoKeySublist {K V σ : Type} (f : σ → K → V → σ × Bool × V) :
    ∀ (l : List (Option (K × V))) (st : σ),
      ((PetitMap.retainGo f st l).1.filterMap (Option.map Prod.fst)).Sublist
        (l.filterMap (Option.map Prod.fst))
  | [], st => by simp [PetitMap.retainGo]
  | none :: t, st => by
    have ih := retainGoKeySublist f t st
    rcases hgo : PetitMap.retainGo f st t with ⟨r, st2⟩
    rw [hgo] at ih
    dsimp only at ih
    simpa [PetitMap.retainGo, hgo, List.filterMap_cons] using ih
  | some (k, v) :: t, st => by
    rcases hf : f st k v with ⟨st1, bv⟩
    rcases bv with ⟨b, v2⟩
    have ih := retainGoKeySublist f t st1
    rcases hgo : PetitMap.retainGo f st1 t with ⟨r, st2⟩
    rw [hgo] at ih
    dsimp only at ih
    cases b with
    | true =>
      simp only [PetitMap.retainGo, hf, hgo, List.filterMap_cons]
      simpa using List.Sublist.cons k ih
    | false =>
      simp only [PetitMap.retainGo, hf, hgo, List.filterMap_cons]
      simpa using (List.cons_sublist_cons (a := k)).mpr ih

theorem uniqRetain {K V σ : Type} [DecidableEq K]
    (m : PetitMap K V) (f : σ → K → V → σ × Bool × V) (st : σ)
    (h : mapKeysUnique m) : mapKeysUnique (m.retain f st).1 := by
  have hsub := retainGoKeySublist f m.storage st
  rcases hgo : PetitMap.retainGo f st m.storage with ⟨r, st2⟩
  rw [hgo] at hsub
  have : (m.retain f st).1 = ⟨r⟩ := by
    simp [PetitMap.retain, hgo]
  rw [this]
  exact hsub.nodup h

theorem uniqExtendPairs {K V : Type} [DecidableEq K] :
    ∀ (l : List (K × V)) (m m' : PetitMap K V), mapKeysUnique m →
      m.extendPairs l = some m' → mapKeysUnique m'
  | [], m, m', h, he => by
    simp only [PetitMap.extendPairs, Option.some.injEq] at he
    subst he
    exact h
  | (k, v) :: rest, m, m', h, he => by
    simp only [PetitMap.extendPairs] at he
    rcases hi : m.insert k v with _ | ⟨m2, r⟩
    · rw [hi] at he
      cases he
    · rw [hi] at he
      exact uniqExtendPairs rest m2 m' (uniqInsert k v h hi) he

theorem filterMapReplicateNoneNil {A B : Type} (f : Option A → Option B)
    (hf : f none = none) :
    ∀ (c : Nat), (List.replicate c (none : Option A)).filterMap f = []
  | 0 => by simp
  | c + 1 => by
    simp [List.replicate, List.filterMap_cons, hf,
      filterMapReplicateNoneNil f hf c]

theorem uniqNew {K V : Type} [DecidableEq K] (c : Nat) :
    mapKeysUnique (PetitMap.new K V c) := by
  show ((List.replicate c none).filterMap (Option.map Prod.fst)).Nodup
  rw [filterMapReplicateNoneNil (Option.map Prod.fst) rfl c]
  exact List.nodup_nil

theorem uniqTryFromIterGo {K V : Type} [DecidableEq K] :
    ∀ (l : List (K × V)) (m : PetitMap K V), mapKeysUnique m →
      (∀ m', PetitMap.tryFromIterGo m l = .ok m' → mapKeysUnique m') ∧
      (∀ m' p, PetitMap.tryFromIterGo m l = .error (m', p) → mapKeysUnique m')
  | [], m, h => by
    constructor
    · intro m' he
      simp only [PetitMap.tryFromIterGo, Except.ok.injEq] at he
      subst he
      exact h
    · intro m' p he
      simp only [PetitMap.tryFromIterGo] at he
      exact Except.noConfusion he
  | (k, v) :: rest, m, h => by
    have hu := uniqTryInsert m k v h
    rcases hti : m.tryInsert k v with ⟨m2, res⟩
    rw [hti] at hu
    cases res with
    | ok r =>
      have ih := uniqTryFromIterGo rest m2 hu
      constructor
      · intro m' he
        simp only [PetitMap.tryFromIterGo, hti] at he
        exact ih.1 m' he
      · intro m' p he
        simp only [PetitMap.tryFromIterGo, hti] at he
        exact ih.2 m' p he
    | error q =>
      constructor
      · intro m' he
        simp only [PetitMap.tryFromIterGo, hti] at he
        exact Except.noConfusion he
      · intro m' p he
        simp only [PetitMap.tryFromIterGo, hti, Except.error.injEq,
          Prod.mk.injEq] at he
        obtain ⟨rfl, rfl⟩ := he
        exact hu

/-! ### Characterizations of the set operations -/

theorem setTryInsertExtant {T : Type} [DecidableEq T]
    (s : PetitSet T) (e : T) {i : Nat} (h : s.find e = some i) :
    s.storage[i]? = some (some e) ∧ s.tryInsert e = (s, .ok (i, false)) := by
  refine ⟨setFindInEqSome s.storage e i h, ?_⟩
  simp only [PetitSet.tryInsert, h]

theorem setTryInsertNovel {T : Type} [DecidableEq T]
    (s : PetitSet T) (e : T) {n : Nat}
    (h : s.find e = none) (hn : s.nextEmptyIndex 0 = some n) :
    s.tryInsert e = (⟨s.storage.set n (some e)⟩, .ok (n, true)) := by
  simp only [PetitSet.tryInsert, h, hn]

theorem setTryInsertFull {T : Type} [DecidableEq T]
    (s : PetitSet T) (e : T)
    (h : s.find e = none) (hn : s.nextEmptyIndex 0 = none) :
    s.tryInsert e = (s, .error e) := by
  simp only [PetitSet.tryInsert, h, hn]

/-! ### Preservation of the uniqueness invariant (set) -/

theorem setUniqSetNone {T : Type} {l : List (Option T)} (i : Nat)
    (h : (l.filterMap id).Nodup) : ((l.set i none).filterMap id).Nodup :=
  (filterMapSetNoneSublist id rfl l i).nodup h

theorem setUniqNew {T : Type} (c : Nat) : setUnique (PetitSet.new T c) := by
  show ((List.replicate c none).filterMap id).Nodup
  rw [filterMapReplicateNoneNil id rfl c]
  exact List.nodup_nil

theorem setUniqTryInsert {T : Type} [DecidableEq T]
    (s : PetitSet T) (e : T) (h : setUnique s) :
    setUnique (s.tryInsert e).1 := by
  cases hf : s.find e with
  | some i =>
    rw [(setTryInsertExtant s e hf).2]
    exact h
  | none =>
    cases hn : s.nextEmptyIndex 0 with
    | some n =>
      rw [setTryInsertNovel s e hf hn]
      show ((s.storage.set n (some e)).filterMap id).Nodup
      rw [setNextEmptyZero] at hn
      obtain ⟨hslot, _⟩ := firstNoneIdxEqSome s.storage n hn
      have hperm := filterMapSetSomePerm id rfl s.storage n e e hslot rfl
      refine hperm.symm.nodup (List.nodup_cons.mpr ⟨?_, h⟩)
      exact (setFindInEqNoneIff s.storage e).mp hf
    | none =>
      rw [setTryInsertFull s e hf hn]
      exact h

theorem setUniqInsert {T : Type} [DecidableEq T]
    {s s' : PetitSet T} {r : Nat × Bool} (e : T)
    (h : setUnique s) (he : s.insert e = some (s', r)) : setUnique s' := by
  unfold PetitSet.insert at he
  have hu := setUniqTryInsert s e h
  rcases hti : s.tryInsert e with ⟨s2, res⟩
  rw [hti] at he hu
  cases res with
  | ok r2 => cases he; exact hu
  | error p => cases he

theorem setUniqInsertAt {T : Type} [DecidableEq T]
    {s s' : PetitSet T} {r : Option T} (e : T) (i : Nat)
    (h : setUnique s) (he : s.insertAt e i = .ok (s', r)) : setUnique s' := by
  unfold PetitSet.insertAt at he
  split at he
  · by_cases hc : s.contains e
    · rw [if_pos hc] at he
      cases he
      exact h
    · rw [if_neg hc] at he
      have hf : s.find e = none := by
        unfold PetitSet.contains at hc
        cases hfe : s.find e with
        | some j => rw [hfe] at hc; simp at hc
        | none => rfl
      have hnot : e ∉ s.storage.filterMap id :=
        (setFindInEqNoneIff s.storage e).mp hf
      cases hsl : s.storage[i]? with
      | none => rw [hsl] at he; cases he
      | some old =>
        rw [hsl] at he
        cases he
        show (((s.storage.set i (some e))).filterMap id).Nodup
        have hstep : s.storage.set i (some e) =
            (s.storage.set i none).set i (some e) := by
          rw [List.set_set]
        rw [hstep]
        have hmid : (s.storage.set i none)[i]? = some none :=
          getSetSelfSome none hsl
        have hperm := filterMapSetSomePerm id rfl
          (s.storage.set i none) i e e hmid rfl
        refine hperm.symm.nodup (List.nodup_cons.mpr ⟨?_, setUniqSetNone i h⟩)
        intro hmem
        exact hnot ((filterMapSetNoneSublist id rfl s.storage i).mem hmem)
  · cases he

theorem setUniqTakeAt {T : Type} [DecidableEq T]
    {s s' : PetitSet T} {r : Option T} (i : Nat)
    (h : setUnique s) (he : s.takeAt i = .ok (s', r)) : setUnique s' := by
  unfold PetitSet.takeAt at he
  split at he
  · split at he
    · cases he
      exact setUniqSetNone i h
    · cases he
  · cases he

theorem setUniqRemoveAt {T : Type} [DecidableEq T]
    {s s' : PetitSet T} {r : Bool} (i : Nat)
    (h : setUnique s) (he : s.removeAt i = .ok (s', r)) : setUnique s' := by
  unfold PetitSet.removeAt at he
  rcases hta : s.takeAt i with e | p
  · rw [hta] at he
    cases he
  · rw [hta] at he
    cases he
    exact setUniqTakeAt i h hta

theorem setUniqRemove {T : Type} [DecidableEq T]
    (s : PetitSet T) (e : T) (h : setUnique s) : setUnique (s.remove e).1 := by
  unfold PetitSet.remove
  cases hf : s.find e with
  | some i => simpa using setUniqSetNone i h
  | none => simpa using h

theorem setUniqTake {T : Type} [DecidableEq T]
    (s : PetitSet T) (e : T) (h : setUnique s) : setUnique (s.take e).1 := by
  unfold PetitSet.take
  cases hf : s.find e with
  | some i =>
    rcases hta : s.takeAt i with er | p
    · simpa only [hta] using h
    · rcases p with ⟨s2, r⟩
      simpa only [hta] using setUniqTakeAt i h hta
  | none => simpa using h

theorem setUniqClear {T : Type} [DecidableEq T] (s : PetitSet T) :
    setUnique s.clear := by
  show ((s.storage.map (fun _ => none)).filterMap id).Nodup
  rw [allNoneFilterMapNil id rfl s.storage]
  exact List.nodup_nil

theorem setUniqExtend {T : Type} [DecidableEq T] :
    ∀ (l : List T) (s s' : PetitSet T), setUnique s →
      s.extendElems l = some s' → setUnique s'
  | [], s, s', h, he => by
    simp only [PetitSet.extendElems, Option.some.injEq] at he
    subst he
    exact h
  | e :: rest, s, s', h, he => by
    simp only [PetitSet.extendElems] at he
    rcases hi : s.insert e with _ | ⟨s2, r⟩
    · rw [hi] at he
      cases he
    · rw [hi] at he
      exact setUniqExtend rest s2 s' (setUniqInsert e h hi) he

theorem setUniqTryExtend {T : Type} [DecidableEq T] :
    ∀ (l : List T) (s s' : PetitSet T), setUnique s →
      s.tryExtend l = .ok s' → setUnique s'
  | [], s, s', h, he => by
    simp only [PetitSet.tryExtend, Except.ok.injEq] at he
    subst he
    exact h
  | e :: rest, s, s', h, he => by
    have hu := setUniqTryInsert s e h
    rcases hti : s.tryInsert e with ⟨s2, res⟩
    rw [hti] at hu
    cases res with
    | ok r =>
      simp only [PetitSet.tryExtend, hti] at he
      exact setUniqTryExtend rest s2 s' hu he
    | error q =>
      simp only [PetitSet.tryExtend, hti] at he
      exact Except.noConfusion he

theorem tfiGoNodup {T : Type} [DecidableEq T] :
    ∀ (l : List T) (c : Nat) (acc : List (Option T)),
      (acc.filterMap id).Nodup →
      (((PetitSet.tfiGo c acc l).1).filterMap id).Nodup
  | [], c, acc, h => by
    simp only [PetitSet.tfiGo, List.filterMap_append]
    rw [filterMapReplicateNoneNil id rfl]
    simpa using h
  | v :: rest, c, acc, h => by
    by_cases hlen : acc.length < c
    · by_cases hdup : acc.contains (some v)
      · simp only [PetitSet.tfiGo, if_pos hlen, if_pos hdup]
        exact tfiGoNodup rest c acc h
      · simp only [PetitSet.tfiGo, if_pos hlen, if_neg hdup]
        apply tfiGoNodup rest c (acc ++ [some v])
        have hmem : some v ∉ acc := by simpa using hdup
        simp only [List.filterMap_append]
        rw [List.nodup_append]
        refine ⟨h, by simp, ?_⟩
        intro a ha hb
        simp at hb
        subst hb
        rcases List.mem_filterMap.mp ha with ⟨o, ho, hid⟩
        simp at hid
        subst hid
        exact hmem ho
    · simp only [PetitSet.tfiGo, if_neg hlen]
      exact h

theorem setUniqTryFromIter {T : Type} [DecidableEq T] (c : Nat) (l : List T) :
    (∀ s', PetitSet.tryFromIter T c l = .ok s' → setUnique s') ∧
    (∀ s' e, PetitSet.tryFromIter T c l = .error (s', e) → setUnique s') := by
  have hbase : (([] : List (Option T)).filterMap id).Nodup := by simp
  have hnd := tfiGoNodup l c [] hbase
  constructor
  · intro s' he
    unfold PetitSet.tryFromIter at he
    dsimp only at he
    split at he
    · exact Except.noConfusion he
    · cases he
      exact hnd
  · intro s' e he
    unfold PetitSet.tryFromIter at he
    dsimp only at he
    split at he
    · cases he
      exact hnd
    · exact Except.noConfusion he

/-- C4: in every map or set state reachable from the empty container by the
checked public mutation entry points (insert, try_insert, insert_at, extend,
try_from_iter, remove, take, swap, retain, clear and the index-based removal
forms; the unchecked escape hatches excluded), no two occupied slots hold
keys (map) or elements (set) that compare equal. -/
theorem claimC4UniquenessInvariant {K V T : Type} [DecidableEq K]
    [DecidableEq T] :
    (∀ m : PetitMap K V, ReachableMap m → mapKeysUnique m) ∧
    (∀ s : PetitSet T, ReachableSet s → setUnique s) := by
  constructor
  · intro m h
    induction h with
    | base c => exact uniqNew c
    | ofTryInsert k v _ ih => exact uniqTryInsert _ k v ih
    | ofInsert k v _ he ih => exact uniqInsert k v ih he
    | ofInsertAt k v i _ he ih => exact uniqInsertAt k v i ih he
    | ofExtend l _ he ih => exact uniqExtendPairs l _ _ ih he
    | ofTryFromIterOk c l he =>
      exact (uniqTryFromIterGo l (PetitMap.new K V c) (uniqNew c)).1 _ he
    | ofTryFromIterErr c l he =>
      exact (uniqTryFromIterGo l (PetitMap.new K V c) (uniqNew c)).2 _ _ he
    | ofRemove k _ ih => exact uniqRemove _ k ih
    | ofTake k _ ih => exact uniqTake _ k ih
    | ofTakeAt i _ he ih => exact uniqTakeAt i ih he
    | ofRemoveAt i _ he ih => exact uniqRemoveAt i ih he
    | ofSwapKeys ka kb _ ih => exact uniqSwapKeys _ ka kb ih
    | ofSwapAt a b _ he ih => exact uniqSwapAt a b ih he
    | ofRetain f st _ ih => exact uniqRetain _ f st ih
    | ofClear _ ih => exact uniqClear _
  · intro s h
    induction h with
    | base c => exact setUniqNew c
    | ofTryInsert e _ ih => exact setUniqTryInsert _ e ih
    | ofInsert e _ he ih => exact setUniqInsert e ih he
    | ofInsertAt e i _ he ih => exact setUniqInsertAt e i ih he
    | ofExtend l _ he ih => exact setUniqExtend l _ _ ih he
    | ofTryExtend l _ he ih => exact setUniqTryExtend l _ _ ih he
    | ofTryFromIterOk c l he => exact (setUniqTryFromIter c l).1 _ he
    | ofTryFromIterErr c l he => exact (setUniqTryFromIter c l).2 _ _ he
    | ofRemove e _ ih => exact setUniqRemove _ e ih
    | ofTake e _ ih => exact setUniqTake _ e ih
    | ofTakeAt i _ he ih => exact setUniqTakeAt i ih he
    | ofRemoveAt i _ he ih => exact setUniqRemoveAt i ih he
    | ofClear _ ih => exact setUniqClear _

/-- Witness for C4 at concrete reachable states: a capacity-1 map after
`try_insert(1, 2)` and a capacity-1 set after `try_insert(5)`. -/
theorem claimC4UniquenessInvariantWitness :
    mapKeysUnique ((PetitMap.new Nat Nat 1).tryInsert 1 2).1 ∧
    setUnique ((PetitSet.new Nat 1).tryInsert 5).1 :=
  ⟨(claimC4UniquenessInvariant (K := Nat) (V := Nat) (T := Nat)).1 _
      (ReachableMap.ofTryInsert 1 2 (ReachableMap.base 1)),
    (claimC4UniquenessInvariant (K := Nat) (V := Nat) (T := Nat)).2 _
      (ReachableSet.ofTryInsert 5 (ReachableSet.base 1))⟩

theorem setFullNextEmptyNone {T : Type} (s : PetitSet T)
    (h : s.len = s.cap) : s.nextEmptyIndex 0 = none := by
  rw [setNextEmptyZero]
  rcases hfn : firstNoneIdx s.storage with _ | i
  · rfl
  · exfalso
    obtain ⟨hslot, _⟩ := firstNoneIdxEqSome s.storage i hfn
    have hcount : s.storage.countP (·.isSome) = s.storage.length := h
    have hall := List.countP_eq_length.mp hcount
    rcases List.getElem?_eq_some.mp hslot with ⟨hlt, hget⟩
    have hmem : (none : Option T) ∈ s.storage := by
      rw [List.mem_iff_getElem]
      exact ⟨i, hlt, hget⟩
    have := hall none hmem
    simp at this

/-- C1: `PetitMap::try_insert` overwrites in place on an extant key and
reports the prior value at the existing index; stores a novel pair at the
lowest-index empty slot; and rejects a novel pair on a full map with a
capacity error carrying it, leaving the map unchanged.  For a full
`PetitSet`, `try_insert` of a present element succeeds reporting the existing
index, while `try_insert` of a novel element fails with a capacity error
carrying that element. -/
theorem claimC1TryInsert {K V T : Type} [DecidableEq K] [DecidableEq T]
    (m : PetitMap K V) (k : K) (v : V) (s : PetitSet T) (e e2 : T) :
    (∀ i, m.find k = some i → ∃ old,
        m.storage[i]? = some (some (k, old)) ∧
        m.tryInsert k v =
          (⟨m.storage.set i (some (k, v))⟩, .ok (.ExtantKey old i))) ∧
    (m.find k = none → ∀ n, m.nextEmptyIndex 0 = some n →
        m.tryInsert k v =
          (⟨m.storage.set n (some (k, v))⟩, .ok (.NovelKey n)) ∧
        m.storage[n]? = some none ∧
        ∀ j, j < n → ∃ p, m.storage[j]? = some (some p)) ∧
    (m.find k = none → m.nextEmptyIndex 0 = none →
        m.tryInsert k v = (m, .error (k, v))) ∧
    (s.len = s.cap → ∀ i, s.find e = some i →
        s.tryInsert e = (s, .ok (i, false))) ∧
    (s.len = s.cap → s.find e2 = none →
        s.tryInsert e2 = (s, .error e2)) := by
  refine ⟨?_, ?_, ?_, ?_, ?_⟩
  · intro i hf
    exact mapTryInsertExtant m k v hf
  · intro hf n hn
    refine ⟨mapTryInsertNovel m k v hf hn, ?_⟩
    rw [mapNextEmptyZero] at hn
    exact firstNoneIdxEqSome m.storage n hn
  · intro hf hn
    exact mapTryInsertFull m k v hf hn
  · intro _ i hf
    exact (setTryInsertExtant s e hf).2
  · intro hfull hf
    exact setTryInsertFull s e2 hf (setFullNextEmptyNone s hfull)

/-- Witness for C1: the extant-key overwrite, the novel-key insertion, the
full-map rejection, and the spec's capacity-2 set scenario. -/
theorem claimC1TryInsertWitness :
    ((⟨[some (1, 10), none]⟩ : PetitMap Nat Nat).tryInsert 1 20 =
      (⟨[some (1, 20), none]⟩, .ok (.ExtantKey 10 0))) ∧
    ((⟨[some (1, 10), none]⟩ : PetitMap Nat Nat).tryInsert 2 30 =
      (⟨[some (1, 10), some (2, 30)]⟩, .ok (.NovelKey 1))) ∧
    ((⟨[some (1, 10)]⟩ : PetitMap Nat Nat).tryInsert 2 30 =
      (⟨[some (1, 10)]⟩, .error (2, 30))) ∧
    ((⟨[some 1, some 2]⟩ : PetitSet Nat).tryInsert 2 =
      (⟨[some 1, some 2]⟩, .ok (1, false))) ∧
    ((⟨[some 1, some 2]⟩ : PetitSet Nat).tryInsert 3 =
      (⟨[some 1, some 2]⟩, .error 3)) := by
  have h := claimC1TryInsert (⟨[some (1, 10), none]⟩ : PetitMap Nat Nat) 1 20
    (⟨[some 1, some 2]⟩ : PetitSet Nat) 2 3
  have h2 := claimC1TryInsert (⟨[some (1, 10), none]⟩ : PetitMap Nat Nat) 2 30
    (⟨[some 1, some 2]⟩ : PetitSet Nat) 2 3
  have h3 := claimC1TryInsert (⟨[some (1, 10)]⟩ : PetitMap Nat Nat) 2 30
    (⟨[some 1, some 2]⟩ : PetitSet Nat) 2 3
  refine ⟨?_, ?_, ?_, ?_, ?_⟩
  · obtain ⟨old, hslot, heq⟩ := h.1 0 (by decide)
    have hold : old = 10 := by
      simp at hslot
      omega
    subst hold
    simpa using heq
  · have := (h2.2.1 (by decide) 1 (by decide)).1
    simpa using this
  · exact h3.2.2.1 (by decide) (by decide)
  · exact h.2.2.2.1 (by decide) 1 (by decide)
  · exact h.2.2.2.2 (by decide) (by decide)

theorem setGetAtLt {T : Type} (s : PetitSet T) (i : Nat) (h : i < s.cap) :
    ∃ slot, s.storage[i]? = some slot ∧ s.getAt i = .ok slot := by
  have hlt : i < s.storage.length := h
  cases hsl : s.storage[i]? with
  | none =>
    rw [List.getElem?_eq_getElem hlt] at hsl
    exact Option.noConfusion hsl
  | some slot =>
    refine ⟨slot, rfl, ?_⟩
    unfold PetitSet.getAt
    rw [hsl]

theorem setGetAtErr {T : Type} (s : PetitSet T) (i : Nat) (h : i ≥ s.cap) :
    s.getAt i = .error () := by
  unfold PetitSet.getAt
  have : s.storage[i]? = none := by
    apply List.getElem?_eq_none
    exact h
  rw [this]

theorem setTakeAtLt {T : Type} (s : PetitSet T) (i : Nat) (h : i < s.cap) :
    ∃ slot, s.storage[i]? = some slot ∧
      s.takeAt i = .ok (⟨s.storage.set i none⟩, slot) := by
  have hlt : i < s.storage.length := h
  cases hsl : s.storage[i]? with
  | none =>
    rw [List.getElem?_eq_getElem hlt] at hsl
    exact Option.noConfusion hsl
  | some slot =>
    refine ⟨slot, rfl, ?_⟩
    unfold PetitSet.takeAt
    rw [if_pos (Nat.le_of_lt h), hsl]

theorem setTakeAtErr {T : Type} (s : PetitSet T) (i : Nat) (h : i ≥ s.cap) :
    s.takeAt i = .error () := by
  unfold PetitSet.takeAt
  by_cases hle : i ≤ s.cap
  · rw [if_pos hle]
    have : s.storage[i]? = none := by
      apply List.getElem?_eq_none
      exact h
    rw [this]
  · rw [if_neg hle]

/-- C8: for every in-bounds index the index-based accessors `get_at`
(`get_at_mut`) and `take_at` succeed, returning the occupied slot's entry or
`None` for an empty slot; for every index at or beyond the capacity they
panic (an unrecoverable `.error ()`), never returning a recoverable value or
a silent `None`. -/
theorem claimC8IndexAccessPanics {K V T : Type}
    (m : PetitMap K V) (s : PetitSet T) (i : Nat) :
    (i < m.cap → ∃ slot, m.storage[i]? = some slot ∧ m.getAt i = .ok slot) ∧
    (i ≥ m.cap → m.getAt i = .error ()) ∧
    (i < m.cap → ∀ pair, m.storage[i]? = some (some pair) →
        m.takeAt i = .ok (⟨m.storage.set i none⟩, some pair)) ∧
    (i < m.cap → m.storage[i]? = some none → m.takeAt i = .ok (m, none)) ∧
    (i ≥ m.cap → m.takeAt i = .error ()) ∧
    (i < s.cap → ∃ slot, s.storage[i]? = some slot ∧ s.getAt i = .ok slot ∧
        s.takeAt i = .ok (⟨s.storage.set i none⟩, slot)) ∧
    (i ≥ s.cap → s.getAt i = .error () ∧ s.takeAt i = .error ()) := by
  refine ⟨?_, ?_, ?_, ?_, ?_, ?_, ?_⟩
  · intro h
    exact mapGetAtLt m i h
  · intro h
    exact mapGetAtErr h
  · intro _ pair hslot
    exact mapTakeAtOccupied hslot
  · intro _ hslot
    exact mapTakeAtEmpty hslot
  · intro h
    exact mapTakeAtErr h
  · intro h
    obtain ⟨slot, hsl, hta⟩ := setTakeAtLt s i h
    obtain ⟨slot2, hsl2, hga⟩ := setGetAtLt s i h
    rw [hsl] at hsl2
    cases hsl2
    exact ⟨slot, hsl, hga, hta⟩
  · intro h
    exact ⟨setGetAtErr s i h, setTakeAtErr s i h⟩

/-- Witness for C8 at a capacity-2 map and set: occupied slot 0, empty slot
1, and the out-of-bounds indices 2 and 3 (the `CAP` boundary included). -/
theorem claimC8IndexAccessPanicsWitness :
    ((⟨[some (1, 2), none]⟩ : PetitMap Nat Nat).getAt 0 = .ok (some (1, 2))) ∧
    ((⟨[some (1, 2), none]⟩ : PetitMap Nat Nat).takeAt 1 =
      .ok (⟨[some (1, 2), none]⟩, none)) ∧
    ((⟨[some (1, 2), none]⟩ : PetitMap Nat Nat).getAt 2 = .error ()) ∧
    ((⟨[some (1, 2), none]⟩ : PetitMap Nat Nat).takeAt 3 = .error ()) ∧
    ((⟨[some 5, none]⟩ : PetitSet Nat).takeAt 0 =
      .ok (⟨[none, none]⟩, some 5)) ∧
    ((⟨[some 5, none]⟩ : PetitSet Nat).getAt 2 = .error ()) := by
  have h0 := claimC8IndexAccessPanics
    (⟨[some (1, 2), none]⟩ : PetitMap Nat Nat) (⟨[some 5, none]⟩ : PetitSet Nat) 0
  have h1 := claimC8IndexAccessPanics
    (⟨[some (1, 2), none]⟩ : PetitMap Nat Nat) (⟨[some 5, none]⟩ : PetitSet Nat) 1
  have h2 := claimC8IndexAccessPanics
    (⟨[some (1, 2), none]⟩ : PetitMap Nat Nat) (⟨[some 5, none]⟩ : PetitSet Nat) 2
  have h3 := claimC8IndexAccessPanics
    (⟨[some (1, 2), none]⟩ : PetitMap Nat Nat) (⟨[some 5, none]⟩ : PetitSet Nat) 3
  refine ⟨?_, ?_, ?_, ?_, ?_, ?_⟩
  · obtain ⟨slot, hsl, hga⟩ := h0.1 (by decide)
    have : slot = some (1, 2) := by
      simp at hsl
      simp [hsl]
    subst this
    exact hga
  · exact h1.2.2.2.1 (by decide) (by decide)
  · exact h2.2.1 (by decide)
  · exact h3.2.2.2.2.1 (by decide)
  · have := h0.2.2.2.2.2.1 (by decide)
    obtain ⟨slot, hsl, _, hta⟩ := this
    have : slot = some 5 := by
      simp at hsl
      simp [hsl]
    subst this
    simpa using hta
  · exact (h2.2.2.2.2.2.2 (by decide)).1

/-- C5: for an in-bounds index, `take_at(i)` / `remove_at(i)` empty slot `i`
and leave every other slot unchanged; and on any map, a `try_insert` of a
novel key stores it at the lowest-index empty slot `n` (every slot below `n`
is occupied) and leaves every slot other than `n` unchanged, so it may reuse
a freed index but never disturbs an occupied slot at an earlier index. -/
theorem claimC5StableIndexing {K V : Type} [DecidableEq K]
    (m : PetitMap K V) (i : Nat) (h : i < m.cap) :
    (∃ m2 r, m.takeAt i = .ok (m2, r) ∧ m.removeAt i = .ok (m2, r.isSome) ∧
      m2.storage[i]? = some none ∧
      ∀ j, j ≠ i → m2.storage[j]? = m.storage[j]?) ∧
    (∀ (m3 : PetitMap K V) (k : K) (v : V) (n : Nat), m3.find k = none →
      m3.nextEmptyIndex 0 = some n →
      (m3.tryInsert k v).1.storage = m3.storage.set n (some (k, v)) ∧
      m3.storage[n]? = some none ∧
      (∀ j, j < n → ∃ p, m3.storage[j]? = some (some p)) ∧
      (∀ j, j ≠ n → (m3.tryInsert k v).1.storage[j]? = m3.storage[j]?)) := by
  constructor
  · have hlt : i < m.storage.length := h
    cases hsl : m.storage[i]? with
    | none =>
      rw [List.getElem?_eq_getElem hlt] at hsl
      exact Option.noConfusion hsl
    | some slot =>
      cases slot with
      | some pair =>
        refine ⟨⟨m.storage.set i none⟩, some pair, mapTakeAtOccupied hsl, ?_,
          getSetSelfSome none hsl, ?_⟩
        · unfold PetitMap.removeAt
          rw [mapTakeAtOccupied hsl]
          rfl
        · intro j hj
          exact List.getElem?_set_ne (Ne.symm hj)
      | none =>
        refine ⟨m, none, mapTakeAtEmpty hsl, ?_, hsl, fun j hj => rfl⟩
        unfold PetitMap.removeAt
        rw [mapTakeAtEmpty hsl]
        rfl
  · intro m3 k v n hf hn
    have heq := mapTryInsertNovel m3 k v hf hn
    rw [mapNextEmptyZero] at hn
    obtain ⟨hslot, hmin⟩ := firstNoneIdxEqSome m3.storage n hn
    refine ⟨by rw [heq], hslot, hmin, ?_⟩
    intro j hj
    rw [heq]
    exact List.getElem?_set_ne (Ne.symm hj)

/-- Witness for C5 at a capacity-2 map, removing index 0 and re-inserting a
novel key, which reuses the freed index 0. -/
theorem claimC5StableIndexingWitness :
    0 < (⟨[some (1, 10), some (2, 20)]⟩ : PetitMap Nat Nat).cap ∧
    ((⟨[some (1, 10), some (2, 20)]⟩ : PetitMap Nat Nat).takeAt 0 =
      .ok (⟨[none, some (2, 20)]⟩, some (1, 10))) ∧
    ((⟨[none, some (2, 20)]⟩ : PetitMap Nat Nat).tryInsert 3 30).1.storage =
      [some (3, 30), some (2, 20)] := by
  have h := claimC5StableIndexing
    (⟨[some (1, 10), some (2, 20)]⟩ : PetitMap Nat Nat) 0 (by decide)
  refine ⟨by decide, by rfl, ?_⟩
  have h2 := (h.2 (⟨[none, some (2, 20)]⟩ : PetitMap Nat Nat) 3 30 0
    (by rfl) (by rfl)).1
  simpa using h2

/-- C10: when the map already stores key `k` (with value `w`, at index `j`)
and `i` is in bounds, `insert_at(k, v, i)` discards the supplied value `v`
entirely: it returns `None`, `k` ends up at index `i` still paired with `w`,
the entry formerly at `i` moves to `j`, and every slot other than `i` and
`j` is unchanged. -/
theorem claimC10InsertAtDiscardsValue {K V : Type} [DecidableEq K]
    (m : PetitMap K V) (k : K) (v w : V) (i j : Nat)
    (hfind : m.find k = some j)
    (hslot : m.storage[j]? = some (some (k, w)))
    (hi : i < m.cap) :
    ∃ m', m.insertAt k v i = .ok (m', none) ∧
      m'.storage[i]? = some (some (k, w)) ∧
      m'.storage[j]? = m.storage[i]? ∧
      (∀ t, t ≠ i → t ≠ j → m'.storage[t]? = m.storage[t]?) := by
  have hj : j < m.storage.length := getSomeLtLength hslot
  have hilt : i < m.storage.length := hi
  cases hy : m.storage[i]? with
  | none =>
    rw [List.getElem?_eq_getElem hilt] at hy
    exact Option.noConfusion hy
  | some y =>
    have hsw : m.swapAt j i =
        .ok ⟨(m.storage.set j y).set i (some (k, w))⟩ := by
      unfold PetitMap.swapAt
      rw [if_pos (show j ≤ m.cap from Nat.le_of_lt hj),
        if_pos (show i ≤ m.cap from Nat.le_of_lt hi), hslot, hy]
    have hins : m.insertAt k v i =
        .ok (⟨(m.storage.set j y).set i (some (k, w))⟩, none) := by
      unfold PetitMap.insertAt
      rw [if_pos (Nat.le_of_lt hi)]
      simp only [hfind, hsw, Except.map]
    refine ⟨⟨(m.storage.set j y).set i (some (k, w))⟩, hins, ?_, ?_, ?_⟩
    · show ((m.storage.set j y).set i (some (k, w)))[i]? = some (some (k, w))
      by_cases hij : j = i
      · subst hij
        exact getSetSelfSome (some (k, w)) (getSetSelfSome y hslot)
      · have : (m.storage.set j y)[i]? = some y := by
          rw [List.getElem?_set_ne hij]
          exact hy
        exact getSetSelfSome (some (k, w)) this
    · show ((m.storage.set j y).set i (some (k, w)))[j]? = some y
      by_cases hij : i = j
      · subst hij
        rw [getSetSelfSome (some (k, w)) (getSetSelfSome y hslot)]
        rw [hslot] at hy
        exact hy
      · rw [List.getElem?_set_ne hij, getSetSelfSome y hslot]
    · intro t hti htj
      show ((m.storage.set j y).set i (some (k, w)))[t]? = m.storage[t]?
      rw [List.getElem?_set_ne (Ne.symm hti), List.getElem?_set_ne (Ne.symm htj)]

/-- Witness for C10: a capacity-2 map holding (1, 10) at index 0 and (2, 20)
at index 1; `insert_at(1, 99, 1)` swaps the two entries, keeps value 10 for
key 1, and discards 99. -/
theorem claimC10InsertAtDiscardsValueWitness :
    (⟨[some (1, 10), some (2, 20)]⟩ : PetitMap Nat Nat).find 1 = some 0 ∧
    (⟨[some (1, 10), some (2, 20)]⟩ : PetitMap Nat Nat).insertAt 1 99 1 =
      .ok (⟨[some (2, 20), some (1, 10)]⟩, none) := by
  have h := claimC10InsertAtDiscardsValue
    (⟨[some (1, 10), some (2, 20)]⟩ : PetitMap Nat Nat) 1 99 10 1 0
    (by decide) (by rfl) (by decide)
  exact ⟨by decide, by rfl⟩

theorem retainStateAtNil {K V σ : Type} (f : σ → K → V → σ × Bool × V)
    (st : σ) : retainStateAt f st [] = st := rfl

theorem retainStateAtConsNone {K V σ : Type} (f : σ → K → V → σ × Bool × V)
    (st : σ) (t : List (Option (K × V))) :
    retainStateAt f st (none :: t) = retainStateAt f st t := rfl

theorem retainStateAtConsSome {K V σ : Type} (f : σ → K → V → σ × Bool × V)
    (st : σ) (k : K) (v : V) (t : List (Option (K × V))) :
    retainStateAt f st (some (k, v) :: t) =
      retainStateAt f (f st k v).1 t := rfl

theorem retainGoSpec {K V σ : Type} (f : σ → K → V → σ × Bool × V) :
    ∀ (l : List (Option (K × V))) (st : σ),
      (PetitMap.retainGo f st l).2 = retainStateAt f st l ∧
      ∀ i, ((PetitMap.retainGo f st l).1)[i]? =
        (l[i]?).map (retainSlot f (retainStateAt f st (l.take i)))
  | [], st => by
    constructor
    · rfl
    · intro i
      simp [PetitMap.retainGo]
  | none :: t, st => by
    obtain ⟨ih1, ih2⟩ := retainGoSpec f t st
    rcases hgo : PetitMap.retainGo f st t with ⟨r, st2⟩
    rw [hgo] at ih1 ih2
    dsimp only at ih1 ih2
    constructor
    · show (PetitMap.retainGo f st (none :: t)).2 = _
      simp only [PetitMap.retainGo, hgo, retainStateAtConsNone]
      exact ih1
    · intro i
      match i with
      | 0 =>
        simp only [PetitMap.retainGo, hgo, List.take_zero, retainStateAtNil]
        simp [retainSlot]
      | i + 1 =>
        simp only [PetitMap.retainGo, hgo, List.take_succ_cons,
          retainStateAtConsNone]
        simpa using ih2 i
  | some (k, v) :: t, st => by
    rcases hf : f st k v with ⟨st1, bv⟩
    rcases bv with ⟨b, v2⟩
    obtain ⟨ih1, ih2⟩ := retainGoSpec f t st1
    rcases hgo : PetitMap.retainGo f st1 t with ⟨r, st2⟩
    rw [hgo] at ih1 ih2
    dsimp only at ih1 ih2
    constructor
    · simp only [PetitMap.retainGo, hf, hgo, retainStateAtConsSome]
      exact ih1
    · intro i
      match i with
      | 0 =>
        simp only [PetitMap.retainGo, hf, hgo, List.take_zero, retainStateAtNil]
        simp [retainSlot, hf]
      | i + 1 =>
        simp only [PetitMap.retainGo, hf, hgo, List.take_succ_cons,
          retainStateAtConsSome]
        simpa using ih2 i

/-- C7: `retain` visits the occupied slots in ascending index order (its
closure state after the run is the fold of `f` over the occupied entries in
index order), and slot `i` afterwards holds exactly: nothing, when the slot
was empty or the predicate returned `true` on its entry (the entry is
removed); or the entry in place (key unchanged, value as mutated by `f`) when
the predicate returned `false` — where `f` sees the closure state accumulated
over the occupied slots before index `i`. -/
theorem claimC7RetainRemovesTrue {K V σ : Type} [DecidableEq K]
    (m : PetitMap K V) (f : σ → K → V → σ × Bool × V) (st : σ) :
    (m.retain f st).2 = retainStateAt f st m.storage ∧
    ∀ i, ((m.retain f st).1).storage[i]? =
      (m.storage[i]?).map
        (retainSlot f (retainStateAt f st (m.storage.take i))) := by
  obtain ⟨h1, h2⟩ := retainGoSpec f m.storage st
  rcases hgo : PetitMap.retainGo f st m.storage with ⟨r, st2⟩
  rw [hgo] at h1 h2
  dsimp only at h1 h2
  have hret : m.retain f st = (⟨r⟩, st2) := by
    simp [PetitMap.retain, hgo]
  rw [hret]
  exact ⟨h1, h2⟩

theorem rangeMapGetD {A : Type} (d : A) :
    ∀ (l : List A), (List.range l.length).map (fun i => l.getD i d) = l
  | [] => by simp
  | a :: t => by
    rw [List.length_cons, List.range_succ_eq_map]
    simp only [List.map_cons, List.map_map]
    refine congrArg₂ List.cons rfl ?_
    have hcomp : ((fun i => (a :: t).getD i d) ∘ Nat.succ) =
        fun i => t.getD i d := by
      funext i
      simp [List.getD]
    rw [hcomp, rangeMapGetD d t]

theorem serializeMapEqStorage {K V : Type} (m : PetitMap K V) :
    serializeMap m = m.storage :=
  rangeMapGetD none m.storage

theorem fillSlotsSelf {A : Type} :
    ∀ (l : List (Option A)), fillSlots l.length l = l
  | [] => rfl
  | x :: t => by
    show x :: fillSlots t.length t = x :: t
    rw [fillSlotsSelf t]

theorem fillSlotsLength {A : Type} :
    ∀ (c : Nat) (l : List (Option A)), (fillSlots c l).length = c
  | 0, _ => rfl
  | c + 1, [] => by simp [fillSlots]
  | c + 1, x :: t => by
    show (x :: fillSlots c t).length = c + 1
    simp [fillSlotsLength c t]

theorem fillSlotsTrailingNone {A : Type} :
    ∀ (c : Nat) (l : List (Option A)) (i : Nat), l.length ≤ i → i < c →
      (fillSlots c l)[i]? = some none
  | 0, l, i, hle, hlt => absurd hlt (Nat.not_lt_zero i)
  | c + 1, [], i, hle, hlt => by
    show (List.replicate (c + 1) (none : Option A))[i]? = some none
    simp [List.getElem?_replicate, hlt]
  | c + 1, x :: t, i, hle, hlt => by
    match i with
    | 0 => simp at hle
    | i + 1 =>
      show (x :: fillSlots c t)[i + 1]? = some none
      simpa using fillSlotsTrailingNone c t i (by simpa using hle)
        (by omega)

theorem serializeSetCEqProj {T : Type} (s : PetitSetC T) :
    serializeSetC s = s.map.storage.map (Option.map Prod.fst) := by
  unfold serializeSetC
  have : (fun i => (s.map.storage.getD i none).map Prod.fst) =
      (Option.map Prod.fst) ∘ (fun i => s.map.storage.getD i none) := rfl
  rw [this, ← List.map_map]
  rw [show (List.range s.map.cap).map (fun i => s.map.storage.getD i none) =
    s.map.storage from rangeMapGetD none s.map.storage]

theorem fillSlotsSetRound {T : Type} :
    ∀ (l : List (Option (T × Unit))),
      fillSlotsSet l.length (l.map (Option.map Prod.fst)) = l
  | [] => rfl
  | none :: t => by
    show none :: fillSlotsSet t.length (t.map (Option.map Prod.fst)) =
      none :: t
    rw [fillSlotsSetRound t]
  | some (k, u) :: t => by
    show some (k, ()) :: fillSlotsSet t.length (t.map (Option.map Prod.fst)) =
      some (k, u) :: t
    rw [fillSlotsSetRound t]

/-- C9: serializing a map (or the composed set) emits exactly `CAP`
optional-slot elements in index order, gaps preserved in place; deserializing
that sequence reproduces a positionally identical container (round-trip
identity); and deserializing a sequence of fewer than `CAP` slots leaves all
trailing slots empty, in a container of capacity `CAP`. -/
theorem claimC9SerdeRoundTrip {K V T : Type} (m : PetitMap K V)
    (s : PetitSetC T) (c : Nat) (l : List (Option (K × V))) :
    (serializeMap m).length = m.cap ∧
    (∀ i : Nat, (serializeMap m)[i]? = m.storage[i]?) ∧
    visitSeqMap K V m.cap (serializeMap m) = m ∧
    (serializeSetC s).length = s.map.cap ∧
    visitSeqSetC T s.map.cap (serializeSetC s) = s ∧
    (visitSeqMap K V c l).cap = c ∧
    (l.length < c → ∀ i, l.length ≤ i → i < c →
      (visitSeqMap K V c l).storage[i]? = some none) := by
  refine ⟨?_, ?_, ?_, ?_, ?_, ?_, ?_⟩
  · rw [serializeMapEqStorage]
    rfl
  · intro i
    exact congrArg (fun x : List (Option (K × V)) => x[i]?)
      (serializeMapEqStorage m)
  · show (⟨fillSlots m.cap (serializeMap m)⟩ : PetitMap K V) = m
    rw [serializeMapEqStorage]
    show (⟨fillSlots m.storage.length m.storage⟩ : PetitMap K V) = m
    rw [fillSlotsSelf m.storage]
  · rw [serializeSetCEqProj]
    simp [PetitMap.cap]
  · show (⟨⟨fillSlotsSet s.map.cap (serializeSetC s)⟩⟩ : PetitSetC T) = s
    rw [serializeSetCEqProj]
    show (⟨⟨fillSlotsSet s.map.storage.length
      (s.map.storage.map (Option.map Prod.fst))⟩⟩ : PetitSetC T) = s
    rw [fillSlotsSetRound s.map.storage]
  · show (fillSlots c l).length = c
    exact fillSlotsLength c l
  · intro _ i hle hlt
    exact fillSlotsTrailingNone c l i hle hlt

/-- Witness for C9: a capacity-3 map with an internal gap round-trips, and a
1-element decoded sequence in a capacity-3 map leaves slots 1 and 2 empty. -/
theorem claimC9SerdeRoundTripWitness :
    serializeMap (⟨[some (1, 11), none, some (3, 31)]⟩ : PetitMap Nat Nat) =
      [some (1, 11), none, some (3, 31)] ∧
    visitSeqMap Nat Nat 3
      (serializeMap (⟨[some (1, 11), none, some (3, 31)]⟩ :
        PetitMap Nat Nat)) = ⟨[some (1, 11), none, some (3, 31)]⟩ ∧
    (visitSeqMap Nat Nat 3 [some (5, 50)]).storage[1]? = some none ∧
    (visitSeqMap Nat Nat 3 [some (5, 50)]).storage[2]? = some none := by
  have h := claimC9SerdeRoundTrip
    (⟨[some (1, 11), none, some (3, 31)]⟩ : PetitMap Nat Nat)
    (⟨⟨[]⟩⟩ : PetitSetC Nat) 3 [some (5, 50)]
  refine ⟨by rfl, ?_, ?_, ?_⟩
  · exact h.2.2.1
  · exact h.2.2.2.2.2.2 (by decide) 1 (by decide) (by decide)
  · exact h.2.2.2.2.2.2 (by decide) 2 (by decide) (by decide)

/-- C2, code-bug evidence: `PartialEq::eq` for `PetitMap` only checks the
keys of `self` against `other` (src/map.rs line 511), so an empty map
compares equal to a non-empty one even though key 1 is present only in the
other map, and the comparison is not symmetric — contradicting the claimed
content equality ("every key present in one map is present in the other"),
the impl's own doc comment ("Tests set-equality between the two maps"), and
the symmetry contract of the derived `Eq` instance. -/
theorem claimC2MapEqAsymmetric :
    PetitMap.mapEq (⟨[none]⟩ : PetitMap Nat Nat)
      (⟨[some (1, 1)]⟩ : PetitMap Nat Nat) = true ∧
    (⟨[some (1, 1)]⟩ : PetitMap Nat Nat).get 1 = some 1 ∧
    (⟨[none]⟩ : PetitMap Nat Nat).get 1 = none ∧
    PetitMap.mapEq (⟨[some (1, 1)]⟩ : PetitMap Nat Nat)
      (⟨[none]⟩ : PetitMap Nat Nat) = false := by
  refine ⟨by decide, by decide, by decide, by decide⟩

/-- C3, counterexample: on the set `{1, 2}` (element 1 at index 0, element 2
at index 1), `insert_at(1, 1)` returns the set unchanged with `None` — the
entry holding 1 stays at index 0 and is not swapped to index 1 as the claimed
relocate-on-conflict policy would require (that policy would yield
`[some 2, some 1]`). -/
theorem claimC3InsertAtCounterexample :
    (⟨[some 1, some 2]⟩ : PetitSet Nat).insertAt 1 1 =
      .ok (⟨[some 1, some 2]⟩, none) ∧
    (⟨[some 1, some 2]⟩ : PetitSet Nat).storage[1]? = some (some 2) ∧
    ((⟨[some 1, some 2]⟩ : PetitSet Nat).storage ≠ [some 2, some 1]) := by
  refine ⟨by rfl, by decide, by decide⟩

/-- C3, amended: when the element is already present in the set (and the
index passes the `assert!(index <= CAP)` check), `PetitSet::insert_at`
returns `None` and leaves the set entirely unchanged — no relocation
occurs (relocate-on-conflict is the map's `insert_at` policy only). -/
theorem claimC3InsertAtPresentNoOp {T : Type} [DecidableEq T]
    (s : PetitSet T) (e : T) (i : Nat)
    (hle : i ≤ s.cap) (hc : s.contains e = true) :
    s.insertAt e i = .ok (s, none) := by
  unfold PetitSet.insertAt
  rw [if_pos hle, if_pos hc]

/-- Witness for the amended C3 on the counterexample input. -/
theorem claimC3InsertAtPresentNoOpWitness :
    1 ≤ (⟨[some 1, some 2]⟩ : PetitSet Nat).cap ∧
    (⟨[some 1, some 2]⟩ : PetitSet Nat).contains 1 = true ∧
    (⟨[some 1, some 2]⟩ : PetitSet Nat).insertAt 1 1 =
      .ok (⟨[some 1, some 2]⟩, none) :=
  ⟨by decide, by decide,
    claimC3InsertAtPresentNoOp (⟨[some 1, some 2]⟩ : PetitSet Nat) 1 1
      (by decide) (by decide)⟩

/-! ### Set algebra support -/

theorem setContainsIffMem {T : Type} [DecidableEq T] (s : PetitSet T)
    (e : T) : s.contains e = true ↔ e ∈ s.elems := by
  unfold PetitSet.contains
  constructor
  · intro h
    by_contra hmem
    rw [PetitSet.find, (setFindInEqNoneIff s.storage e).mpr hmem] at h
    simp at h
  · intro hmem
    cases hf : s.find e with
    | none =>
      exact absurd hmem ((setFindInEqNoneIff s.storage e).mp hf)
    | some i => simp [hf]

theorem setContainsFalseIffNotMem {T : Type} [DecidableEq T] (s : PetitSet T)
    (e : T) : s.contains e = false ↔ e ∉ s.elems := by
  constructor
  · intro h hmem
    rw [(setContainsIffMem s e).mpr hmem] at h
    cases h
  · intro hmem
    cases hc : s.contains e with
    | false => rfl
    | true => exact absurd ((setContainsIffMem s e).mp hc) hmem

theorem countPIsSomeEqFilterMapLength {T : Type} :
    ∀ (l : List (Option T)), l.countP (·.isSome) = (l.filterMap id).length
  | [] => rfl
  | none :: t => by
    simp [List.countP_cons, List.filterMap_cons,
      countPIsSomeEqFilterMapLength t]
  | some a :: t => by
    simp [List.countP_cons, List.filterMap_cons,
      countPIsSomeEqFilterMapLength t]

theorem setLenEqElemsLength {T : Type} (s : PetitSet T) :
    s.len = s.elems.length :=
  countPIsSomeEqFilterMapLength s.storage

theorem elemsPackedSet {T : Type} (c : Nat) (l : List T) :
    (packedSet c l).elems = l := by
  show ((l.map some ++ List.replicate (c - l.length) none).filterMap id) = l
  rw [List.filterMap_append, filterMapReplicateNoneNil id rfl]
  simp

theorem capPackedSet {T : Type} (c : Nat) (l : List T) (h : l.length ≤ c) :
    (packedSet c l).cap = c := by
  show (l.map some ++ List.replicate (c - l.length) none).length = c
  simp
  omega

theorem elemsLenLeCap {T : Type} (s : PetitSet T) : s.elems.length ≤ s.cap := by
  rw [← setLenEqElemsLength]
  show s.storage.countP (·.isSome) ≤ s.storage.length
  exact List.countP_le_length _

theorem firstNoneIdxPacked {T : Type} :
    ∀ (l : List T) (k : Nat), 0 < k →
      firstNoneIdx (l.map some ++ List.replicate k (none : Option T)) =
        some l.length
  | [], k, hk => by
    match k, hk with
    | k + 1, _ => simp [List.replicate, firstNoneIdx]
  | a :: t, k, hk => by
    show (firstNoneIdx (t.map some ++ List.replicate k none)).map (· + 1) =
      some (t.length + 1)
    rw [firstNoneIdxPacked t k hk]
    rfl

theorem setPackedStep {T : Type} :
    ∀ (l : List T) (k : Nat) (e : T),
      (l.map some ++ List.replicate (k + 1) (none : Option T)).set l.length
        (some e) = l.map some ++ some e :: List.replicate k none
  | [], k, e => by simp [List.replicate, List.set]
  | a :: t, k, e => by
    simp only [List.map_cons, List.cons_append, List.length_cons,
      List.set_cons_succ]
    rw [setPackedStep t k e]

theorem packedInsertUnchecked {T : Type} (c : Nat) (l : List T) (e : T)
    (h : l.length < c) :
    (packedSet c l).insertUnchecked e =
      (packedSet c (l ++ [e]), some l.length) := by
  have hk : c - l.length = (c - (l.length + 1)) + 1 := by omega
  have hne : (packedSet c l).nextEmptyIndex 0 = some l.length := by
    rw [setNextEmptyZero]
    show firstNoneIdx (l.map some ++ List.replicate (c - l.length) none) =
      some l.length
    rw [hk]
    exact firstNoneIdxPacked l ((c - (l.length + 1)) + 1) (Nat.succ_pos _)
  unfold PetitSet.insertUnchecked
  rw [hne]
  refine congrArg₂ Prod.mk ?_ rfl
  refine congrArg PetitSet.mk ?_
  show (l.map some ++ List.replicate (c - l.length) none).set l.length
    (some e) = (l ++ [e]).map some ++ List.replicate (c - (l ++ [e]).length)
      none
  rw [hk, setPackedStep l (c - (l.length + 1)) e]
  simp

theorem newEqPackedNil {T : Type} (c : Nat) :
    PetitSet.new T c = packedSet c [] := rfl

theorem memElemsOfSlot {T : Type} {s : PetitSet T} {i : Nat} {x : T}
    (h : s.storage[i]? = some (some x)) : x ∈ s.elems := by
  rcases List.getElem?_eq_some.mp h with ⟨hlt, hget⟩
  refine List.mem_filterMap.mpr ⟨some x, ?_, rfl⟩
  rw [List.mem_iff_getElem]
  exact ⟨i, hlt, hget⟩

theorem unionGoUPacked {T : Type} :
    ∀ (xs l : List T) (c : Nat), l.length + xs.length ≤ c →
      PetitSet.unionGoU (packedSet c l) xs = packedSet c (l ++ xs)
  | [], l, c, h => by simp [PetitSet.unionGoU]
  | x :: rest, l, c, h => by
    have hlt : l.length < c := by
      simp at h
      omega
    show PetitSet.unionGoU ((packedSet c l).insertUnchecked x).1 rest =
      packedSet c (l ++ x :: rest)
    rw [packedInsertUnchecked c l x hlt]
    have := unionGoUPacked rest (l ++ [x]) c (by simp at h ⊢; omega)
    simpa using this

theorem diffGoPacked {T : Type} [DecidableEq T] (other : PetitSet T) :
    ∀ (xs l : List T) (c : Nat), l.length + xs.length ≤ c →
      PetitSet.diffGo other (packedSet c l) xs =
        packedSet c (l ++ xs.filter (fun a => !(other.contains a)))
  | [], l, c, h => by simp [PetitSet.diffGo]
  | x :: rest, l, c, h => by
    cases hc : other.contains x with
    | true =>
      show PetitSet.diffGo other (packedSet c l) (x :: rest) = _
      unfold PetitSet.diffGo
      rw [if_pos hc]
      have := diffGoPacked other rest l c (by simp at h ⊢; omega)
      rw [this]
      simp [List.filter_cons, hc]
    | false =>
      have hlt : l.length < c := by
        simp at h
        omega
      unfold PetitSet.diffGo
      rw [if_neg (by simp [hc])]
      rw [packedInsertUnchecked c l x hlt]
      have := diffGoPacked other rest (l ++ [x]) c (by simp at h ⊢; omega)
      rw [this]
      simp [List.filter_cons, hc]

theorem interGoPacked {T : Type} [DecidableEq T] (other : PetitSet T) :
    ∀ (xs l : List T) (c : Nat), l.length + xs.length ≤ c →
      PetitSet.interGo other (packedSet c l) xs =
        packedSet c (l ++ xs.filter (fun a => other.contains a))
  | [], l, c, h => by simp [PetitSet.interGo]
  | x :: rest, l, c, h => by
    cases hc : other.contains x with
    | false =>
      unfold PetitSet.interGo
      rw [if_neg (by simp [hc])]
      have := interGoPacked other rest l c (by simp at h ⊢; omega)
      rw [this]
      simp [List.filter_cons, hc]
    | true =>
      have hlt : l.length < c := by
        simp at h
        omega
      unfold PetitSet.interGo
      rw [if_pos hc]
      rw [packedInsertUnchecked c l x hlt]
      have := interGoPacked other rest (l ++ [x]) c (by simp at h ⊢; omega)
      rw [this]
      simp [List.filter_cons, hc]

theorem packedTryInsertNovel {T : Type} [DecidableEq T] (c : Nat) (l : List T)
    (x : T) (hmem : x ∉ l) (hlt : l.length < c) :
    (packedSet c l).tryInsert x =
      (packedSet c (l ++ [x]), .ok (l.length, true)) := by
  have hfind : (packedSet c l).find x = none := by
    apply (setFindInEqNoneIff (packedSet c l).storage x).mpr
    rw [show (packedSet c l).storage.filterMap id = (packedSet c l).elems
      from rfl, elemsPackedSet]
    exact hmem
  have hk : c - l.length = (c - (l.length + 1)) + 1 := by omega
  have hne : (packedSet c l).nextEmptyIndex 0 = some l.length := by
    rw [setNextEmptyZero]
    show firstNoneIdx (l.map some ++ List.replicate (c - l.length) none) =
      some l.length
    rw [hk]
    exact firstNoneIdxPacked l ((c - (l.length + 1)) + 1) (Nat.succ_pos _)
  rw [setTryInsertNovel (packedSet c l) x hfind hne]
  refine congrArg₂ Prod.mk (congrArg PetitSet.mk ?_) rfl
  show (l.map some ++ List.replicate (c - l.length) none).set l.length
    (some x) = (l ++ [x]).map some ++ List.replicate (c - (l ++ [x]).length)
      none
  rw [hk, setPackedStep l (c - (l.length + 1)) x]
  simp

theorem unionGoCPackedNew {T : Type} [DecidableEq T] :
    ∀ (xs l : List T) (c : Nat), l.length + xs.length ≤ c →
      (∀ x ∈ xs, x ∉ l) → xs.Nodup →
      PetitSet.unionGoC (packedSet c l) xs = some (packedSet c (l ++ xs))
  | [], l, c, h, hdis, hnd => by simp [PetitSet.unionGoC]
  | x :: rest, l, c, h, hdis, hnd => by
    have hlt : l.length < c := by
      simp at h
      omega
    have hx : x ∉ l := hdis x (by simp)
    have hti := packedTryInsertNovel c l x hx hlt
    have hins : (packedSet c l).insert x =
        some (packedSet c (l ++ [x]), (l.length, true)) := by
      unfold PetitSet.insert
      rw [hti]
    unfold PetitSet.unionGoC
    simp only [hins]
    have hrest := unionGoCPackedNew rest (l ++ [x]) c
      (by simp at h ⊢; omega)
      (by
        intro y hy
        simp only [List.mem_append, List.mem_singleton]
        rintro (hyl | hyx)
        · exact hdis y (by simp [hy]) hyl
        · subst hyx
          exact (List.nodup_cons.mp hnd).1 hy)
      (List.nodup_cons.mp hnd).2
    rw [hrest]
    simp

theorem unionGoCSome {T : Type} [DecidableEq T] :
    ∀ (xs : List T) (u : PetitSet T), u.len + xs.length ≤ u.cap →
      ∃ u2, PetitSet.unionGoC u xs = some u2 ∧
        (∀ y, y ∈ u.elems → y ∈ u2.elems) ∧
        (∀ x ∈ xs, x ∈ u2.elems)
  | [], u, h => ⟨u, by simp [PetitSet.unionGoC], fun y hy => hy, by simp⟩
  | x :: rest, u, h => by
    cases hf : u.find x with
    | some i =>
      obtain ⟨hslot, hti⟩ := setTryInsertExtant u x hf
      have hins : u.insert x = some (u, (i, false)) := by
        unfold PetitSet.insert
        rw [hti]
      obtain ⟨u2, hgo, hpres, hmem⟩ := unionGoCSome rest u
        (by simp at h; omega)
      refine ⟨u2, ?_, hpres, ?_⟩
      · unfold PetitSet.unionGoC
        rw [hins]
        exact hgo
      · intro y hy
        rcases List.mem_cons.mp hy with hyx | hyr
        · rw [hyx]
          exact hpres x (memElemsOfSlot hslot)
        · exact hmem y hyr
    | none =>
      have hcount : u.storage.countP (·.isSome) < u.storage.length := by
        have h1 : u.len + rest.length + 1 ≤ u.cap := by
          simp at h
          omega
        have : u.len < u.cap := by omega
        exact this
      obtain ⟨n, hn⟩ := firstNoneIdxIsSomeOfCount u.storage hcount
      have hne : u.nextEmptyIndex 0 = some n := by
        rw [setNextEmptyZero, hn]
      obtain ⟨hslot, _⟩ := firstNoneIdxEqSome u.storage n hn
      have hti := setTryInsertNovel u x hf hne
      have hins : u.insert x =
          some (⟨u.storage.set n (some x)⟩, (n, true)) := by
        unfold PetitSet.insert
        rw [hti]
      have hperm : ((u.storage.set n (some x)).filterMap id).Perm
          (x :: u.storage.filterMap id) :=
        filterMapSetSomePerm id rfl u.storage n x x hslot rfl
      have hlen2 : (⟨u.storage.set n (some x)⟩ : PetitSet T).len + rest.length
          ≤ (⟨u.storage.set n (some x)⟩ : PetitSet T).cap := by
        have hl2 : (⟨u.storage.set n (some x)⟩ : PetitSet T).len =
            u.len + 1 := by
          rw [setLenEqElemsLength, setLenEqElemsLength]
          show ((u.storage.set n (some x)).filterMap id).length = _
          rw [hperm.length_eq]
          rfl
        have hc2 : (⟨u.storage.set n (some x)⟩ : PetitSet T).cap = u.cap := by
          show (u.storage.set n (some x)).length = u.storage.length
          exact List.length_set u.storage n (some x)
        rw [hl2, hc2]
        simp at h
        omega
      obtain ⟨u2, hgo, hpres, hmem⟩ := unionGoCSome rest
        ⟨u.storage.set n (some x)⟩ hlen2
      refine ⟨u2, ?_, ?_, ?_⟩
      · unfold PetitSet.unionGoC
        rw [hins]
        exact hgo
      · intro y hy
        refine hpres y ?_
        show y ∈ (u.storage.set n (some x)).filterMap id
        rw [hperm.mem_iff]
        exact List.mem_cons_of_mem x hy
      · intro y hy
        rcases List.mem_cons.mp hy with hyx | hyr
        · rw [hyx]
          refine hpres x ?_
          show x ∈ (u.storage.set n (some x)).filterMap id
          rw [hperm.mem_iff]
          exact List.mem_cons_self x _
        · exact hmem y hyr

theorem setEqReflTrue {T : Type} [DecidableEq T] (s : PetitSet T) :
    PetitSet.setEq s s = true := by
  unfold PetitSet.setEq
  rw [if_pos rfl, List.all_eq_true]
  intro a ha
  rw [List.any_eq_true]
  exact ⟨a, ha, by simp⟩

theorem isSupersetTrueOfMem {T : Type} [DecidableEq T] {A B : PetitSet T}
    (h : ∀ b ∈ B.elems, b ∈ A.elems) : A.isSuperset B = true := by
  unfold PetitSet.isSuperset
  rw [List.all_eq_true]
  intro b hb
  rw [List.any_eq_true]
  exact ⟨b, h b hb, by simp⟩

theorem isSubsetTrueOfMem {T : Type} [DecidableEq T] {A B : PetitSet T}
    (h : ∀ a ∈ A.elems, a ∈ B.elems) : A.isSubset B = true := by
  unfold PetitSet.isSubset
  rw [List.all_eq_true]
  intro a ha
  rw [List.any_eq_true]
  exact ⟨a, h a ha, by simp⟩

theorem isDisjointTrueOfNe {T : Type} [DecidableEq T] {A B : PetitSet T}
    (h : ∀ a ∈ A.elems, ∀ b ∈ B.elems, a ≠ b) : A.isDisjoint B = true := by
  unfold PetitSet.isDisjoint
  rw [List.all_eq_true]
  intro a ha
  rw [List.all_eq_true]
  intro b hb
  simpa using h a ha b hb

theorem differenceEqPacked {T : Type} [DecidableEq T] (A B : PetitSet T) :
    A.difference B =
      packedSet A.cap (A.elems.filter (fun a => !(B.contains a))) := by
  unfold PetitSet.difference
  rw [newEqPackedNil]
  have := diffGoPacked B A.elems [] A.cap (by simpa using elemsLenLeCap A)
  simpa using this

theorem intersectionEqPacked {T : Type} [DecidableEq T] (A B : PetitSet T) :
    A.intersection B =
      packedSet (PetitSet.maxOf A.cap B.cap)
        (A.elems.filter (fun a => B.contains a)) := by
  unfold PetitSet.intersection
  rw [newEqPackedNil]
  have hle : A.elems.length ≤ PetitSet.maxOf A.cap B.cap := by
    have h1 := elemsLenLeCap A
    unfold PetitSet.maxOf
    split <;> omega
  have := interGoPacked B A.elems [] (PetitSet.maxOf A.cap B.cap)
    (by simpa using hle)
  simpa using this

theorem symmetricDifferenceEqPacked {T : Type} [DecidableEq T]
    (A B : PetitSet T) :
    A.symmetricDifference B =
      packedSet (A.cap + B.cap)
        (A.elems.filter (fun a => !(B.contains a)) ++
          B.elems.filter (fun b => !(A.contains b))) := by
  unfold PetitSet.symmetricDifference
  rw [newEqPackedNil]
  have h1 := diffGoPacked B A.elems [] (A.cap + B.cap)
    (by
      have := elemsLenLeCap A
      simp
      omega)
  rw [show PetitSet.diffGo B (packedSet (A.cap + B.cap) []) A.elems =
    packedSet (A.cap + B.cap) (A.elems.filter (fun a => !(B.contains a)))
    from by simpa using h1]
  have h2 := diffGoPacked A B.elems
    (A.elems.filter (fun a => !(B.contains a))) (A.cap + B.cap)
    (by
      have ha := List.length_filter_le (fun a => !(B.contains a)) A.elems
      have ha2 := elemsLenLeCap A
      have hb := elemsLenLeCap B
      omega)
  exact h2

theorem unionEqQ {T : Type} [DecidableEq T] (A B : PetitSet T) :
    ∃ u, A.union B = some u ∧
      (∀ y, y ∈ A.elems → y ∈ u.elems) ∧ (∀ x ∈ B.elems, x ∈ u.elems) := by
  unfold PetitSet.union
  rw [newEqPackedNil]
  rw [unionGoUPacked A.elems [] (A.cap + B.cap)
    (by
      have := elemsLenLeCap A
      simp
      omega)]
  have hlen : (packedSet (A.cap + B.cap) ([] ++ A.elems)).len +
      B.elems.length ≤ (packedSet (A.cap + B.cap) ([] ++ A.elems)).cap := by
    rw [setLenEqElemsLength, elemsPackedSet, capPackedSet]
    · have ha := elemsLenLeCap A
      have hb := elemsLenLeCap B
      simp
      omega
    · have ha := elemsLenLeCap A
      simp
      omega
  obtain ⟨u2, hgo, hpres, hmem⟩ := unionGoCSome B.elems _ hlen
  refine ⟨u2, hgo, ?_, hmem⟩
  intro y hy
  refine hpres y ?_
  rw [elemsPackedSet]
  simpa using hy

theorem unionOfDifferencesPacked {T : Type} [DecidableEq T]
    (A B : PetitSet T) (hB : setUnique B) :
    (A.difference B).union (B.difference A) =
      some (A.symmetricDifference B) := by
  have hlAB : (A.difference B).elems =
      A.elems.filter (fun a => !(B.contains a)) := by
    rw [differenceEqPacked, elemsPackedSet]
  have hlBA : (B.difference A).elems =
      B.elems.filter (fun b => !(A.contains b)) := by
    rw [differenceEqPacked, elemsPackedSet]
  have hcapAB : (A.difference B).cap = A.cap := by
    rw [differenceEqPacked]
    exact capPackedSet _ _
      (le_trans (List.length_filter_le _ _) (elemsLenLeCap A))
  have hcapBA : (B.difference A).cap = B.cap := by
    rw [differenceEqPacked]
    exact capPackedSet _ _
      (le_trans (List.length_filter_le _ _) (elemsLenLeCap B))
  unfold PetitSet.union
  rw [newEqPackedNil, hlAB, hlBA, hcapAB, hcapBA]
  have hlenAB : (A.elems.filter (fun a => !(B.contains a))).length ≤ A.cap :=
    le_trans (List.length_filter_le _ _) (elemsLenLeCap A)
  have hlenBA : (B.elems.filter (fun b => !(A.contains b))).length ≤ B.cap :=
    le_trans (List.length_filter_le _ _) (elemsLenLeCap B)
  rw [unionGoUPacked (A.elems.filter (fun a => !(B.contains a))) []
    (A.cap + B.cap) (by simp; omega)]
  rw [unionGoCPackedNew (B.elems.filter (fun b => !(A.contains b)))
    ([] ++ A.elems.filter (fun a => !(B.contains a))) (A.cap + B.cap)
    (by simp; omega)
    (by
      intro x hx
      simp only [List.nil_append]
      intro hmemAB
      have hxB := List.mem_filter.mp hx
      have hxA := List.mem_filter.mp hmemAB
      have : A.contains x = false := by simpa using hxB.2
      exact ((setContainsFalseIffNotMem A x).mp this) hxA.1)
    (hB.filter _)]
  rw [symmetricDifferenceEqPacked]
  simp

/-- C6: the set algebra laws.  For all sets `A` and `B` of possibly
different capacities (satisfying the uniqueness invariant): `union(A,B)`
succeeds and is a superset of `A` and of `B`; `intersection(A,B)` is a
subset of `A` and of `B`; `difference(A,B)` is disjoint from `B`;
`symmetric_difference(A,B)` equals, under the code's set equality, the union
of `difference(A,B)` and `difference(B,A)`; and `is_subset(A,A)` always
holds. -/
theorem claimC6SetAlgebraLaws {T : Type} [DecidableEq T] (A B : PetitSet T)
    (hA : setUnique A) (hB : setUnique B) :
    (∃ u, A.union B = some u ∧
      u.isSuperset A = true ∧ u.isSuperset B = true) ∧
    (A.intersection B).isSubset A = true ∧
    (A.intersection B).isSubset B = true ∧
    (A.difference B).isDisjoint B = true ∧
    (∃ w, (A.difference B).union (B.difference A) = some w ∧
      PetitSet.setEq (A.symmetricDifference B) w = true) ∧
    A.isSubset A = true := by
  refine ⟨?_, ?_, ?_, ?_, ?_, ?_⟩
  · obtain ⟨u, hu, hpres, hmem⟩ := unionEqQ A B
    refine ⟨u, hu, isSupersetTrueOfMem hpres, isSupersetTrueOfMem hmem⟩
  · apply isSubsetTrueOfMem
    intro a ha
    rw [intersectionEqPacked, elemsPackedSet] at ha
    exact (List.mem_filter.mp ha).1
  · apply isSubsetTrueOfMem
    intro a ha
    rw [intersectionEqPacked, elemsPackedSet] at ha
    have := (List.mem_filter.mp ha).2
    exact (setContainsIffMem B a).mp this
  · apply isDisjointTrueOfNe
    intro a ha b hb hab
    rw [differenceEqPacked, elemsPackedSet] at ha
    have hc : B.contains a = false := by
      simpa using (List.mem_filter.mp ha).2
    subst hab
    exact ((setContainsFalseIffNotMem B a).mp hc) hb
  · exact ⟨A.symmetricDifference B, unionOfDifferencesPacked A B hB,
      setEqReflTrue _⟩
  · apply isSubsetTrueOfMem
    intro a ha
    exact ha

/-- Witness for C6 at the spec's concrete scenario 4: `A = {7, 13, 5}` of
capacity 3 and `B = {15, 7, 3, 4, 5}` of capacity 5. -/
theorem claimC6SetAlgebraLawsWitness :
    setUnique (⟨[some 7, some 13, some 5]⟩ : PetitSet Nat) ∧
    setUnique (⟨[some 15, some 7, some 3, some 4, some 5]⟩ : PetitSet Nat) ∧
    ((⟨[some 7, some 13, some 5]⟩ : PetitSet Nat).intersection
      ⟨[some 15, some 7, some 3, some 4, some 5]⟩).isSubset
        ⟨[some 7, some 13, some 5]⟩ = true ∧
    ((⟨[some 7, some 13, some 5]⟩ : PetitSet Nat).difference
      ⟨[some 15, some 7, some 3, some 4, some 5]⟩).isDisjoint
        ⟨[some 15, some 7, some 3, some 4, some 5]⟩ = true ∧
    (⟨[some 7, some 13, some 5]⟩ : PetitSet Nat).isSubset
      ⟨[some 7, some 13, some 5]⟩ = true := by
  have h := claimC6SetAlgebraLaws
    (⟨[some 7, some 13, some 5]⟩ : PetitSet Nat)
    (⟨[some 15, some 7, some 3, some 4, some 5]⟩ : PetitSet Nat)
    (by unfold setUnique; decide) (by unfold setUnique; decide)
  exact ⟨by unfold setUnique; decide, by unfold setUnique; decide,
    h.2.1, h.2.2.2.1, h.2.2.2.2.2⟩
